import Mathlib

/-!
# ToDoList: the task store and its flat-file format

A shallow embedding of `src/main.cpp`.  The program keeps a `vector<Task>` and an
`int nextId`, both passed by reference to `addTask`, `markTaskCompleted`,
`deleteTask`, `saveTasks` and `loadTasks`.

Modelling conventions:

* `std::string` is a `List Char`; a file's contents is the `List Char` it holds.
* `int` is a 32-bit signed integer.  Values are carried in `Int`; the two additions
  of the program (`nextId++` and `task.id + 1`) go through `wrapInt`, the
  two's-complement wraparound.
* The values the functions read from `cin` (a description line, an id) are
  arguments of the embedded functions; what they print on `cout` is returned as a
  `Bool` where it distinguishes "found" from "Task ID not found.".
* `std::stoi` throws on a bad id segment and nothing catches it, so `loadTasks`
  returns an `Option`: `none` is the aborted load.
-/

namespace ToDoList

/-! ## Data model -/

/-- The record `struct Task` of `main.cpp`. -/
structure Task where
  id : Int
  description : List Char
  completed : Bool
deriving DecidableEq

/-- The pair `(tasks, nextId)` that `main` owns and hands to every operation. -/
structure Store where
  tasks : List Task
  nextId : Int
deriving DecidableEq

/-- Largest value of a 32-bit `int`. -/
def INT_MAX : Int := 2147483647

/-- Smallest value of a 32-bit `int`. -/
def INT_MIN : Int := -2147483648

/-- Reduction of an integer to the 32-bit two's-complement range. -/
def wrapInt (x : Int) : Int := (x + 2147483648) % 4294967296 - 2147483648

/-- The state of `main` before `loadTasks` is called: no tasks, `nextId = 1`. -/
def emptyStore : Store := { tasks := [], nextId := 1 }

/-! ## Store operations -/

/-- Embedding of `addTask`: the new task takes the current `nextId`, the counter is
incremented, the task is pushed at the back with `completed = false`. -/
def addTask (s : Store) (description : List Char) : Store :=
  { tasks := s.tasks ++ [{ id := s.nextId, description := description, completed := false }]
    nextId := wrapInt (s.nextId + 1) }

/-- Embedding of `markTaskCompleted`: the range-for loop sets the flag of the first
task whose id matches and returns; the `Bool` is `false` when the loop runs to the
end ("Task ID not found."). -/
def markTaskCompleted : List Task → Int → List Task × Bool
  | [], _ => ([], false)
  | task :: rest, id =>
    if task.id = id then
      ({ task with completed := true } :: rest, true)
    else
      let r := markTaskCompleted rest id
      (task :: r.1, r.2)

/-- Embedding of `deleteTask`: the iterator loop erases the first task whose id
matches and returns; the `Bool` is `false` when the loop runs to the end. -/
def deleteTask : List Task → Int → List Task × Bool
  | [], _ => ([], false)
  | task :: rest, id =>
    if task.id = id then
      (rest, true)
    else
      let r := deleteTask rest id
      (task :: r.1, r.2)

/-! ## Writing the file -/

/-- The character of a decimal digit `d < 10`. -/
def digitChar (d : Nat) : Char := Char.ofNat (48 + d)

/-- Decimal digits of `n` in front of `acc`, least significant digit produced first. -/
def natToCharsAux : Nat → Nat → List Char → List Char
  | 0, _, acc => acc
  | fuel + 1, n, acc =>
    if n / 10 = 0 then digitChar (n % 10) :: acc
    else natToCharsAux fuel (n / 10) (digitChar (n % 10) :: acc)

/-- Decimal numeral of a natural number, without leading zeros. -/
def natToChars (n : Nat) : List Char := natToCharsAux (n + 1) n []

/-- What `outFile << task.id` writes for an `int`: the decimal numeral, with a
leading minus sign for a negative value. -/
def intToChars (i : Int) : List Char :=
  if i < 0 then '-' :: natToChars i.natAbs else natToChars i.natAbs

/-- What `outFile << task.completed` writes for a `bool`: `1` or `0`. -/
def boolToChars (b : Bool) : List Char := if b then ['1'] else ['0']

/-- One iteration of the loop of `saveTasks`:
`outFile << task.id << "|" << task.completed << "|" << task.description << "\n"`. -/
def encodeTask (task : Task) : List Char :=
  intToChars task.id ++ ['|'] ++ boolToChars task.completed ++ ['|'] ++ task.description ++ ['\n']

/-- Embedding of `saveTasks`: the text written to the file once it is open, one line per
task in vector order. -/
def saveTasks : List Task → List Char
  | [] => []
  | task :: rest => encodeTask task ++ saveTasks rest

/-! ## Reading the file -/

/-- The lines that the loop `while(getline(inFile, line))` sees: each line ends at a
newline, which is dropped; a last line without a newline is still delivered; `getline`
fails once no character is left. -/
def getLines : List Char → List (List Char)
  | [] => []
  | c :: cs =>
    if c = '\n' then [] :: getLines cs
    else
      match getLines cs with
      | [] => [[c]]
      | l :: ls => (c :: l) :: ls

/-- Index of the first occurrence of `c` in `s`, if any. -/
def findIdx (c : Char) : List Char → Option Nat
  | [] => none
  | x :: xs => if x = c then some 0 else (findIdx c xs).map (· + 1)

/-- Embedding of `line.find(c, start)`; `none` stands for `string::npos`. -/
def find (s : List Char) (c : Char) (start : Nat) : Option Nat :=
  (findIdx c (s.drop start)).map (· + start)

/-- Embedding of `line.substr(pos, len)` for `pos` within the string. -/
def substr (s : List Char) (pos len : Nat) : List Char := (s.drop pos).take len

/-- The characters `isspace` accepts in the "C" locale; `strtol` skips them. -/
def isSpace (c : Char) : Bool :=
  c = ' ' || c = '\t' || c = '\n' || c = '\x0b' || c = '\x0c' || c = '\r'

/-- Whether a character is a decimal digit. -/
def isDigit (c : Char) : Bool := 48 ≤ c.toNat && c.toNat ≤ 57

/-- Value of a run of decimal digits read left to right, starting from `acc`. -/
def digitsValue (acc : Nat) (ds : List Char) : Nat :=
  ds.foldl (fun v c => v * 10 + (c.toNat - 48)) acc

/-- The range check at the end of `std::stoi`: a value outside `int` is the exception
`out_of_range`. -/
def checkRange (v : Int) : Option Int := if INT_MIN ≤ v ∧ v ≤ INT_MAX then some v else none

/-- Embedding of `std::stoi(str)` in base 10: leading white space is skipped, one
optional sign is read, then the longest run of digits; what follows is ignored.
`none` stands for the exceptions `invalid_argument` (no digit) and `out_of_range`
(value outside `int`). -/
def stoi (str : List Char) : Option Int :=
  let s1 := str.dropWhile isSpace
  let negative : Bool := decide (s1.head? = some '-')
  let s2 := if s1.head? = some '-' ∨ s1.head? = some '+' then s1.tail else s1
  let ds := s2.takeWhile isDigit
  if ds = [] then none
  else
    checkRange (if negative then -(digitsValue 0 ds : Int) else (digitsValue 0 ds : Int))

/-- The body of the loop of `loadTasks` for one line: a line without two delimiters is
skipped (`continue`); otherwise the task is pushed and `nextId` raised when the id
reaches it.  `none` when `stoi` throws. -/
def loadLine (s : Store) (line : List Char) : Option Store :=
  let pos1 := find line '|' 0
  let pos2 := match pos1 with
    | some p1 => find line '|' (p1 + 1)
    | none => find line '|' 0
  match pos1, pos2 with
  | some p1, some p2 =>
    match stoi (substr line 0 p1) with
    | none => none
    | some id =>
      let task : Task :=
        { id := id
          completed := decide (substr line (p1 + 1) (p2 - p1 - 1) = ['1'])
          description := line.drop (p2 + 1) }
      some { tasks := s.tasks ++ [task]
             nextId := if task.id ≥ s.nextId then wrapInt (task.id + 1) else s.nextId }
  | _, _ => some s

/-- The loop of `loadTasks` over the lines of the file. -/
def loadLines : Store → List (List Char) → Option Store
  | s, [] => some s
  | s, line :: rest =>
    match loadLine s line with
    | none => none
    | some s1 => loadLines s1 rest

/-- Embedding of `loadTasks`: `file = none` is a file that cannot be opened (the store
is left as it is); otherwise every line of the text is processed in order. -/
def loadTasks (s : Store) (file : Option (List Char)) : Option Store :=
  match file with
  | none => some s
  | some text => loadLines s (getLines text)

/-! ## Runs of the menu loop -/

/-- The three choices of the menu that change the store. -/
inductive Op where
  | add (description : List Char)
  | complete (id : Int)
  | delete (id : Int)
deriving DecidableEq

/-- One pass of the `switch` of `main` for a choice that changes the store. -/
def applyOp (s : Store) : Op → Store
  | Op.add description => addTask s description
  | Op.complete id => { s with tasks := (markTaskCompleted s.tasks id).1 }
  | Op.delete id => { s with tasks := (deleteTask s.tasks id).1 }

/-- A sequence of menu choices, applied from left to right. -/
def runOps (s : Store) (ops : List Op) : Store := ops.foldl applyOp s

/-- Number of `Add` choices in a sequence. -/
def numAdds : List Op → Nat
  | [] => 0
  | Op.add _ :: rest => numAdds rest + 1
  | _ :: rest => numAdds rest

/-- A step of a run in which the file may be loaded again. -/
inductive Action where
  | op (o : Op)
  | load (file : Option (List Char))
deriving DecidableEq

/-- One action on the store; `none` when a load aborts. -/
def applyAction (s : Store) : Action → Option Store
  | Action.op o => some (applyOp s o)
  | Action.load file => loadTasks s file

/-- A sequence of actions, applied from left to right; `none` as soon as a load aborts. -/
def runActions : Store → List Action → Option Store
  | s, [] => some s
  | s, a :: rest =>
    match applyAction s a with
    | none => none
    | some s1 => runActions s1 rest

/-- The ids that the `Add` actions of a run hand out, in call order. -/
def issuedIds : Store → List Action → List Int
  | _, [] => []
  | s, a :: rest =>
    match applyAction s a with
    | none => []
    | some s1 =>
      match a with
      | Action.op (Op.add _) => s.nextId :: issuedIds s1 rest
      | _ => issuedIds s1 rest

/-- Whether one step from `s` to `s1` stays clear of 32-bit overflow: an `Add` is not
made with `nextId = INT_MAX`, and a load does not read the id `INT_MAX`. -/
def stepNoOverflow (s : Store) (a : Action) (s1 : Store) : Bool :=
  match a with
  | Action.op (Op.add _) => decide (s.nextId < INT_MAX)
  | Action.op _ => true
  | Action.load _ => (s1.tasks.drop s.tasks.length).all (fun t => decide (t.id < INT_MAX))

/-- Whether every step of a run stays clear of 32-bit overflow. -/
def noOverflow : Store → List Action → Bool
  | _, [] => true
  | s, a :: rest =>
    match applyAction s a with
    | none => true
    | some s1 => stepNoOverflow s a s1 && noOverflow s1 rest

/-- The counter that a load leaves behind when nothing overflows: the larger of the
counter before and one more than each id read. -/
def maxNext (n : Int) (ts : List Task) : Int := ts.foldl (fun m t => max m (t.id + 1)) n

/-- The ids of a list of tasks, in order. -/
def ids (ts : List Task) : List Int := ts.map Task.id

/-- A task list as the program can hold it: every id is a 32-bit `int`. -/
abbrev InRange (ts : List Task) : Prop := ∀ t ∈ ts, INT_MIN ≤ t.id ∧ t.id ≤ INT_MAX

/-- The line that `saveTasks` writes for a task, without its final newline. -/
def taskLine (task : Task) : List Char :=
  intToChars task.id ++ '|' :: (boolToChars task.completed ++ '|' :: task.description)

/-- Number of delimiters `|` in a line. -/
def barCount (line : List Char) : Nat := line.count '|'

/-- The id segment of a line: the text before its first `|`. -/
def idSegment (line : List Char) : List Char := line.takeWhile (fun c => decide (c ≠ '|'))

/-- The end of the loop body of `loadTasks`: `tasks.push_back(task)` and the update of
`nextId` when `task.id >= nextId`. -/
def pushTask (s : Store) (task : Task) : Store :=
  { tasks := s.tasks ++ [task]
    nextId := if task.id ≥ s.nextId then wrapInt (task.id + 1) else s.nextId }

/-! ## Decimal numerals -/

theorem digitChar_toNat (d : Nat) (h : d < 10) : (digitChar d).toNat = 48 + d := by
  have key : ∀ k : Fin 10, (digitChar k.val).toNat = 48 + k.val := by decide
  exact key ⟨d, h⟩

theorem digitChar_isDigit (d : Nat) (h : d < 10) : isDigit (digitChar d) = true := by
  simp [isDigit, digitChar_toNat d h]
  omega

theorem digitsValue_append (acc : Nat) (xs : List Char) (c : Char) :
    digitsValue acc (xs ++ [c]) = digitsValue acc xs * 10 + (c.toNat - 48) := by
  simp [digitsValue, List.foldl_append]

theorem natToCharsAux_acc (fuel : Nat) : ∀ (n : Nat) (acc : List Char),
    natToCharsAux fuel n acc = natToCharsAux fuel n [] ++ acc := by
  induction fuel with
  | zero => intro n acc; simp [natToCharsAux]
  | succ k ih =>
    intro n acc
    by_cases h : n / 10 = 0
    · simp [natToCharsAux, h]
    · simp only [natToCharsAux, h, if_false]
      rw [ih (n / 10) (digitChar (n % 10) :: acc), ih (n / 10) [digitChar (n % 10)]]
      simp

theorem natToCharsAux_spec (fuel : Nat) : ∀ n : Nat, n < fuel →
    natToCharsAux fuel n [] ≠ [] ∧
    (∀ c ∈ natToCharsAux fuel n [], isDigit c = true) ∧
    digitsValue 0 (natToCharsAux fuel n []) = n := by
  induction fuel with
  | zero => intro n h; omega
  | succ k ih =>
    intro n hn
    by_cases h : n / 10 = 0
    · have h10 : n < 10 := by omega
      have hm : n % 10 = n := Nat.mod_eq_of_lt h10
      simp only [natToCharsAux, h, if_true, hm]
      refine ⟨by simp, ?_, ?_⟩
      · intro c hc
        simp at hc
        subst hc
        exact digitChar_isDigit n h10
      · simp [digitsValue, digitChar_toNat n h10]
    · have hk : n / 10 < k := by omega
      obtain ⟨h1, h2, h3⟩ := ih (n / 10) hk
      simp only [natToCharsAux, h, if_false]
      rw [natToCharsAux_acc]
      refine ⟨by simp, ?_, ?_⟩
      · intro c hc
        rcases List.mem_append.1 hc with hc | hc
        · exact h2 c hc
        · simp at hc
          subst hc
          exact digitChar_isDigit _ (Nat.mod_lt _ (by decide))
      · rw [digitsValue_append, h3, digitChar_toNat _ (Nat.mod_lt _ (by decide))]
        omega

theorem natToChars_ne_nil (n : Nat) : natToChars n ≠ [] :=
  (natToCharsAux_spec (n + 1) n (Nat.lt_succ_self n)).1

theorem natToChars_isDigit (n : Nat) : ∀ c ∈ natToChars n, isDigit c = true :=
  (natToCharsAux_spec (n + 1) n (Nat.lt_succ_self n)).2.1

theorem natToChars_value (n : Nat) : digitsValue 0 (natToChars n) = n :=
  (natToCharsAux_spec (n + 1) n (Nat.lt_succ_self n)).2.2

/-! ## `stoi` reads back what `<<` writes -/

theorem isDigit_not_special (c : Char) (h : isDigit c = true) :
    isSpace c = false ∧ c ≠ '-' ∧ c ≠ '+' ∧ c ≠ '|' ∧ c ≠ '\n' := by
  refine ⟨?_, ?_, ?_, ?_, ?_⟩
  · cases hs : isSpace c with
    | false => rfl
    | true =>
      exfalso
      simp only [isSpace, Bool.or_eq_true, decide_eq_true_eq] at hs
      rcases hs with ((((hs | hs) | hs) | hs) | hs) | hs <;> (subst hs; revert h; decide)
  all_goals (intro hc; subst hc; revert h; decide)

theorem takeWhile_isDigit_self (ds : List Char) (hd : ∀ c ∈ ds, isDigit c = true) :
    ds.takeWhile isDigit = ds := by
  induction ds with
  | nil => rfl
  | cons c cs ih =>
    have hc : isDigit c = true := hd c (List.mem_cons_self c cs)
    simp [List.takeWhile, hc, ih (fun x hx => hd x (List.mem_cons_of_mem c hx))]

theorem stoi_digits (ds : List Char) (hne : ds ≠ []) (hd : ∀ c ∈ ds, isDigit c = true)
    (hv : (digitsValue 0 ds : Int) ≤ INT_MAX) :
    stoi ds = some (digitsValue 0 ds : Int) := by
  cases ds with
  | nil => exact absurd rfl hne
  | cons c cs =>
    have hc := isDigit_not_special c (hd c (List.mem_cons_self c cs))
    have htw := takeWhile_isDigit_self (c :: cs) hd
    have hlo : INT_MIN ≤ (digitsValue 0 (c :: cs) : Int) := by
      have : (0 : Int) ≤ (digitsValue 0 (c :: cs) : Int) := Int.natCast_nonneg _
      simp only [INT_MIN]; omega
    simp only [stoi, List.dropWhile, hc.1, List.head?_cons, Option.some.injEq, hc.2.1,
      hc.2.2.1, or_self, if_false, htw, decide_False, Bool.false_eq_true]
    simp [checkRange, hlo, hv]

theorem stoi_minus_digits (ds : List Char) (hne : ds ≠ []) (hd : ∀ c ∈ ds, isDigit c = true)
    (hv : INT_MIN ≤ -(digitsValue 0 ds : Int)) :
    stoi ('-' :: ds) = some (-(digitsValue 0 ds : Int)) := by
  have hsp : isSpace '-' = false := by decide
  have htw := takeWhile_isDigit_self ds hd
  have hhi : -(digitsValue 0 ds : Int) ≤ INT_MAX := by
    have : (0 : Int) ≤ (digitsValue 0 ds : Int) := Int.natCast_nonneg _
    simp only [INT_MAX]; omega
  simp only [stoi, List.dropWhile, hsp, List.head?_cons, true_or, if_true, List.tail_cons,
    htw, decide_True]
  simp [checkRange, hne, hv, hhi]

theorem stoi_intToChars (i : Int) (hlo : INT_MIN ≤ i) (hhi : i ≤ INT_MAX) :
    stoi (intToChars i) = some i := by
  by_cases hneg : i < 0
  · have hval : -((digitsValue 0 (natToChars i.natAbs) : Nat) : Int) = i := by
      rw [natToChars_value]; omega
    simp only [intToChars, hneg, if_true]
    rw [stoi_minus_digits _ (natToChars_ne_nil _) (natToChars_isDigit _) (by rw [hval]; exact hlo),
      hval]
  · have hval : ((digitsValue 0 (natToChars i.natAbs) : Nat) : Int) = i := by
      rw [natToChars_value]; omega
    simp only [intToChars, hneg, if_false]
    rw [stoi_digits _ (natToChars_ne_nil _) (natToChars_isDigit _) (by rw [hval]; exact hhi),
      hval]

theorem intToChars_no_bar (i : Int) : '|' ∉ intToChars i ∧ '\n' ∉ intToChars i := by
  have hd := natToChars_isDigit i.natAbs
  have hb : '|' ∉ natToChars i.natAbs := fun hm =>
    (isDigit_not_special _ (hd _ hm)).2.2.2.1 rfl
  have hn : '\n' ∉ natToChars i.natAbs := fun hm =>
    (isDigit_not_special _ (hd _ hm)).2.2.2.2 rfl
  by_cases hneg : i < 0
  · simp only [intToChars, hneg, if_true, List.mem_cons, not_or]
    exact ⟨⟨by decide, hb⟩, ⟨by decide, hn⟩⟩
  · simp only [intToChars, hneg, if_false]
    exact ⟨hb, hn⟩

/-! ## One line of the file -/

theorem findIdx_append (c : Char) (xs ys : List Char) (h : c ∉ xs) :
    findIdx c (xs ++ c :: ys) = some xs.length := by
  induction xs with
  | nil => simp [findIdx]
  | cons x xs ih =>
    have hx : x ≠ c := fun e => h (e ▸ List.mem_cons_self x xs)
    have hxs : c ∉ xs := fun m => h (List.mem_cons_of_mem x m)
    simp [findIdx, hx, ih hxs]

theorem drop_length_succ (xs : List Char) (x : Char) (ys : List Char) :
    (xs ++ x :: ys).drop (xs.length + 1) = ys := by
  induction xs with
  | nil => rfl
  | cons a xs _ => simp

theorem take_length_append (xs ys : List Char) : (xs ++ ys).take xs.length = xs := by
  induction xs with
  | nil => simp
  | cons a xs _ => simp

theorem loadLine_fields (s : Store) (a b d : List Char) (ha : '|' ∉ a) (hb : '|' ∉ b) :
    loadLine s (a ++ '|' :: (b ++ '|' :: d)) =
      match stoi a with
      | none => none
      | some id =>
        some { tasks := s.tasks ++ [{ id := id, description := d, completed := decide (b = ['1']) }]
               nextId := if id ≥ s.nextId then wrapInt (id + 1) else s.nextId } := by
  have h1 : find (a ++ '|' :: (b ++ '|' :: d)) '|' 0 = some a.length := by
    simp [find, findIdx_append _ _ _ ha]
  have h2 : find (a ++ '|' :: (b ++ '|' :: d)) '|' (a.length + 1) =
      some (b.length + (a.length + 1)) := by
    simp only [find, drop_length_succ, findIdx_append _ _ _ hb, Option.map_some']
  have h3 : substr (a ++ '|' :: (b ++ '|' :: d)) 0 a.length = a := by
    simp [substr, take_length_append]
  have h4 : substr (a ++ '|' :: (b ++ '|' :: d)) (a.length + 1)
      (b.length + (a.length + 1) - a.length - 1) = b := by
    have e : b.length + (a.length + 1) - a.length - 1 = b.length := by omega
    simp only [substr, drop_length_succ, e, take_length_append]
  have h5 : (a ++ '|' :: (b ++ '|' :: d)).drop (b.length + (a.length + 1) + 1) = d := by
    have e : b.length + (a.length + 1) + 1 = (a ++ '|' :: b).length + 1 := by
      simp; omega
    have e2 : a ++ '|' :: (b ++ '|' :: d) = (a ++ '|' :: b) ++ '|' :: d := by simp
    rw [e, e2, drop_length_succ]
  simp only [loadLine, h1, h2, h3, h4, h5]

theorem loadLine_taskLine (s : Store) (t : Task) (hlo : INT_MIN ≤ t.id) (hhi : t.id ≤ INT_MAX) :
    loadLine s (taskLine t) =
      some { tasks := s.tasks ++ [t]
             nextId := if t.id ≥ s.nextId then wrapInt (t.id + 1) else s.nextId } := by
  have hb : '|' ∉ boolToChars t.completed := by
    cases t.completed <;> decide
  have hc : decide (boolToChars t.completed = ['1']) = t.completed := by
    cases t.completed <;> decide
  rw [taskLine, loadLine_fields s _ _ _ (intToChars_no_bar t.id).1 hb, stoi_intToChars t.id hlo hhi]
  simp only [hc]

/-! ## The lines of the file -/

theorem getLines_line (l rest : List Char) (hl : '\n' ∉ l) :
    getLines (l ++ '\n' :: rest) = l :: getLines rest := by
  induction l with
  | nil => simp [getLines]
  | cons c l ih =>
    have hc : c ≠ '\n' := fun e => hl (e ▸ List.mem_cons_self c l)
    have hl2 : '\n' ∉ l := fun m => hl (List.mem_cons_of_mem c m)
    simp [getLines, hc, ih hl2]

theorem taskLine_no_newline (t : Task) (h : '\n' ∉ t.description) : '\n' ∉ taskLine t := by
  have hi := (intToChars_no_bar t.id).2
  have hb : '\n' ∉ boolToChars t.completed := by
    cases t.completed <;> decide
  simp only [taskLine, List.mem_append, List.mem_cons, not_or]
  exact ⟨hi, by decide, hb, by decide, h⟩

theorem encodeTask_eq (t : Task) (rest : List Char) :
    encodeTask t ++ rest = taskLine t ++ '\n' :: rest := by
  simp [encodeTask, taskLine]

theorem getLines_saveTasks (ts : List Task) (hnl : ∀ t ∈ ts, '\n' ∉ t.description) :
    getLines (saveTasks ts) = ts.map taskLine := by
  induction ts with
  | nil => rfl
  | cons t ts ih =>
    have ht := taskLine_no_newline t (hnl t (List.mem_cons_self t ts))
    have hts := ih (fun x hx => hnl x (List.mem_cons_of_mem t hx))
    simp only [saveTasks, encodeTask_eq, getLines_line _ _ ht, hts, List.map_cons]

/-! ## The loop of `loadTasks` -/

theorem checkRange_some (x v : Int) (h : checkRange x = some v) :
    INT_MIN ≤ v ∧ v ≤ INT_MAX := by
  by_cases hr : INT_MIN ≤ x ∧ x ≤ INT_MAX
  · simp only [checkRange, hr, and_self, if_true, Option.some.injEq] at h
    rw [← h]
    exact hr
  · simp [checkRange, hr] at h

theorem stoi_range (str : List Char) (v : Int) (h : stoi str = some v) :
    INT_MIN ≤ v ∧ v ≤ INT_MAX := by
  have key : ∀ (c : Prop) [Decidable c] (x : Int),
      (if c then none else checkRange x) = some v → INT_MIN ≤ v ∧ v ≤ INT_MAX := by
    intro c _ x hx
    by_cases hc : c
    · simp [hc] at hx
    · simp only [hc, if_false] at hx
      exact checkRange_some x v hx
  exact key _ _ h

theorem wrapInt_succ (i : Int) (hlo : INT_MIN ≤ i) (hlt : i < INT_MAX) :
    wrapInt (i + 1) = i + 1 := by
  simp only [INT_MIN, INT_MAX] at hlo hlt
  simp only [wrapInt]
  omega

theorem counter_step (n i : Int) (hlo : INT_MIN ≤ i) (hlt : i < INT_MAX) :
    (if i ≥ n then wrapInt (i + 1) else n) = max n (i + 1) := by
  rw [wrapInt_succ i hlo hlt]
  by_cases h : i ≥ n
  · simp only [h, if_true]; omega
  · simp only [h, if_false]; omega

theorem loadLine_cases (s s1 : Store) (line : List Char) (h : loadLine s line = some s1) :
    s1 = s ∨ ∃ t : Task, (INT_MIN ≤ t.id ∧ t.id ≤ INT_MAX) ∧
      s1 = { tasks := s.tasks ++ [t]
             nextId := if t.id ≥ s.nextId then wrapInt (t.id + 1) else s.nextId } := by
  simp only [loadLine] at h
  split at h
  · rename_i p1 p2 _ _
    cases hst : stoi (substr line 0 p1) with
    | none => rw [hst] at h; exact absurd h (by simp)
    | some v =>
      rw [hst] at h
      right
      exact ⟨_, stoi_range _ _ hst, (Option.some.inj h).symm⟩
  · left
    exact (Option.some.inj h).symm

theorem maxNext_append (n : Int) (xs ys : List Task) :
    maxNext n (xs ++ ys) = maxNext (maxNext n xs) ys := by
  simp [maxNext, List.foldl_append]

theorem maxNext_ge (ts : List Task) : ∀ n : Int, n ≤ maxNext n ts := by
  induction ts with
  | nil => intro n; simp [maxNext]
  | cons t ts ih =>
    intro n
    have h := ih (max n (t.id + 1))
    simp only [maxNext, List.foldl_cons] at h ⊢
    omega

theorem maxNext_gt (ts : List Task) : ∀ n : Int, ∀ t ∈ ts, t.id < maxNext n ts := by
  induction ts with
  | nil => intro n t ht; simp at ht
  | cons u ts ih =>
    intro n t ht
    have hge := maxNext_ge ts (max n (u.id + 1))
    simp only [maxNext, List.foldl_cons] at hge ⊢
    rcases List.mem_cons.1 ht with e | hm
    · subst e; omega
    · exact ih (max n (u.id + 1)) t hm

theorem loadLines_spec (lines : List (List Char)) : ∀ s s1 : Store,
    loadLines s lines = some s1 →
    ∃ new : List Task, s1.tasks = s.tasks ++ new ∧ InRange new ∧
      ((∀ t ∈ new, t.id < INT_MAX) → s1.nextId = maxNext s.nextId new) := by
  induction lines with
  | nil =>
    intro s s1 h
    simp only [loadLines] at h
    have e := Option.some.inj h
    subst e
    exact ⟨[], by simp, by simp [InRange], fun _ => rfl⟩
  | cons line rest ih =>
    intro s s1 h
    simp only [loadLines] at h
    cases hl : loadLine s line with
    | none => rw [hl] at h; exact absurd h (by simp)
    | some s2 =>
      rw [hl] at h
      obtain ⟨new, hn1, hn2, hn3⟩ := ih s2 s1 h
      rcases loadLine_cases s s2 line hl with e | ⟨t, htr, e⟩
      · subst e
        exact ⟨new, hn1, hn2, hn3⟩
      · subst e
        refine ⟨t :: new, by simp [hn1], ?_, ?_⟩
        · intro x hx
          rcases List.mem_cons.1 hx with e | hm
          · subst e; exact htr
          · exact hn2 x hm
        · intro hlt
          have h3 := hn3 (fun x hx => hlt x (List.mem_cons_of_mem t hx))
          have ht := counter_step s.nextId t.id htr.1 (hlt t (List.mem_cons_self t new))
          simp only [ht] at h3
          simp only [h3, maxNext, List.foldl_cons]

theorem loadLines_taskLines (ts : List Task) : ∀ s : Store, InRange ts →
    ∃ s1 : Store, loadLines s (ts.map taskLine) = some s1 ∧ s1.tasks = s.tasks ++ ts := by
  induction ts with
  | nil => intro s _; exact ⟨s, rfl, by simp⟩
  | cons t ts ih =>
    intro s hr
    have ht := hr t (List.mem_cons_self t ts)
    obtain ⟨s1, h1, h2⟩ := ih
      { tasks := s.tasks ++ [t]
        nextId := if t.id ≥ s.nextId then wrapInt (t.id + 1) else s.nextId }
      (fun x hx => hr x (List.mem_cons_of_mem t hx))
    refine ⟨s1, ?_, by simp [h2]⟩
    simp only [List.map_cons, loadLines, loadLine_taskLine s t ht.1 ht.2, h1]

theorem load_save (ts : List Task) (s : Store) (hr : InRange ts)
    (hnl : ∀ t ∈ ts, '\n' ∉ t.description) :
    ∃ s1 : Store, loadTasks s (some (saveTasks ts)) = some s1 ∧ s1.tasks = s.tasks ++ ts := by
  simp only [loadTasks, getLines_saveTasks ts hnl]
  exact loadLines_taskLines ts s hr

/-! ## Round trip -/

/-- C1: for every task list whose ids are 32-bit `int` values and whose descriptions
contain neither the delimiter nor a newline, loading into the empty store the text that
`saveTasks` writes succeeds and gives back the same tasks in the same order. -/
theorem saveTasks_loadTasks_roundtrip (ts : List Task) (hr : InRange ts)
    (hd : ∀ t ∈ ts, '|' ∉ t.description ∧ '\n' ∉ t.description) :
    (loadTasks emptyStore (some (saveTasks ts))).map Store.tasks = some ts := by
  obtain ⟨s1, h1, h2⟩ := load_save ts emptyStore hr (fun t ht => (hd t ht).2)
  rw [h1, Option.map_some', h2]
  simp [emptyStore]

/-- Witness of C1 on a list of three tasks, one with a negative id. -/
theorem saveTasks_loadTasks_roundtrip_witness :
    InRange [⟨1, "a".toList, false⟩, ⟨-3, "Buy milk".toList, true⟩, ⟨2147483647, [], false⟩] ∧
    (∀ t ∈ ([⟨1, "a".toList, false⟩, ⟨-3, "Buy milk".toList, true⟩,
        ⟨2147483647, [], false⟩] : List Task), '|' ∉ t.description ∧ '\n' ∉ t.description) ∧
    (loadTasks emptyStore (some (saveTasks
        [⟨1, "a".toList, false⟩, ⟨-3, "Buy milk".toList, true⟩, ⟨2147483647, [], false⟩]))).map
      Store.tasks =
      some [⟨1, "a".toList, false⟩, ⟨-3, "Buy milk".toList, true⟩, ⟨2147483647, [], false⟩] :=
  ⟨by decide, by decide,
    saveTasks_loadTasks_roundtrip _ (by decide) (by decide)⟩

/-! ## Complete and Delete -/

theorem first_match (ts : List Task) (id : Int) (h : ∃ t ∈ ts, t.id = id) :
    ∃ (pre : List Task) (t : Task) (post : List Task),
      ts = pre ++ t :: post ∧ t.id = id ∧ ∀ u ∈ pre, u.id ≠ id := by
  induction ts with
  | nil =>
    obtain ⟨t, ht, _⟩ := h
    simp at ht
  | cons a ts ih =>
    by_cases ha : a.id = id
    · exact ⟨[], a, ts, rfl, ha, by simp⟩
    · have h2 : ∃ t ∈ ts, t.id = id := by
        obtain ⟨t, ht, hid⟩ := h
        rcases List.mem_cons.1 ht with e | hm
        · subst e; exact absurd hid ha
        · exact ⟨t, hm, hid⟩
      obtain ⟨pre, t, post, e, hid, hpre⟩ := ih h2
      refine ⟨a :: pre, t, post, by simp [e], hid, ?_⟩
      intro u hu
      rcases List.mem_cons.1 hu with e2 | hm
      · subst e2; exact ha
      · exact hpre u hm

theorem markTaskCompleted_split (pre : List Task) (t : Task) (post : List Task) (id : Int)
    (hid : t.id = id) (hpre : ∀ u ∈ pre, u.id ≠ id) :
    markTaskCompleted (pre ++ t :: post) id =
      (pre ++ { id := t.id, description := t.description, completed := true } :: post, true) := by
  induction pre with
  | nil => simp [markTaskCompleted, hid]
  | cons a pre ih =>
    have ha : a.id ≠ id := hpre a (List.mem_cons_self a pre)
    have h2 := ih (fun u hu => hpre u (List.mem_cons_of_mem a hu))
    simp [markTaskCompleted, ha, h2]

theorem deleteTask_split (pre : List Task) (t : Task) (post : List Task) (id : Int)
    (hid : t.id = id) (hpre : ∀ u ∈ pre, u.id ≠ id) :
    deleteTask (pre ++ t :: post) id = (pre ++ post, true) := by
  induction pre with
  | nil => simp [deleteTask, hid]
  | cons a pre ih =>
    have ha : a.id ≠ id := hpre a (List.mem_cons_self a pre)
    have h2 := ih (fun u hu => hpre u (List.mem_cons_of_mem a hu))
    simp [deleteTask, ha, h2]

theorem markTaskCompleted_absent (ts : List Task) (id : Int) (h : ∀ t ∈ ts, t.id ≠ id) :
    markTaskCompleted ts id = (ts, false) := by
  induction ts with
  | nil => rfl
  | cons a ts ih =>
    have ha : a.id ≠ id := h a (List.mem_cons_self a ts)
    have h2 := ih (fun u hu => h u (List.mem_cons_of_mem a hu))
    simp [markTaskCompleted, ha, h2]

theorem deleteTask_absent (ts : List Task) (id : Int) (h : ∀ t ∈ ts, t.id ≠ id) :
    deleteTask ts id = (ts, false) := by
  induction ts with
  | nil => rfl
  | cons a ts ih =>
    have ha : a.id ≠ id := h a (List.mem_cons_self a ts)
    have h2 := ih (fun u hu => h u (List.mem_cons_of_mem a hu))
    simp [deleteTask, ha, h2]

theorem deleteTask_found (ts : List Task) (id : Int) (h : (deleteTask ts id).2 = true) :
    ∃ t ∈ ts, t.id = id := by
  by_cases hex : ∃ t ∈ ts, t.id = id
  · exact hex
  · have hab : ∀ t ∈ ts, t.id ≠ id := fun t ht e => hex ⟨t, ht, e⟩
    rw [deleteTask_absent ts id hab] at h
    exact absurd h (by simp)

theorem markTaskCompleted_ids (ts : List Task) (id : Int) :
    ids (markTaskCompleted ts id).1 = ids ts := by
  induction ts with
  | nil => rfl
  | cons a ts ih =>
    by_cases ha : a.id = id
    · simp [markTaskCompleted, ha, ids]
    · simp only [ids] at ih
      simp [markTaskCompleted, ha, ids, ih]

theorem markTaskCompleted_mem (ts : List Task) (id : Int) :
    ∀ u ∈ (markTaskCompleted ts id).1, ∃ t ∈ ts, u.id = t.id ∧ u.description = t.description := by
  induction ts with
  | nil => intro u hu; simp [markTaskCompleted] at hu
  | cons a ts ih =>
    intro u hu
    by_cases ha : a.id = id
    · simp only [markTaskCompleted, ha, if_true] at hu
      rcases List.mem_cons.1 hu with e | hm
      · exact ⟨a, List.mem_cons_self a ts, by rw [e]; exact ha.symm, by rw [e]⟩
      · exact ⟨u, List.mem_cons_of_mem a hm, rfl, rfl⟩
    · simp only [markTaskCompleted, ha, if_false] at hu
      rcases List.mem_cons.1 hu with e | hm
      · exact ⟨a, List.mem_cons_self a ts, by rw [e], by rw [e]⟩
      · obtain ⟨t, ht, h1, h2⟩ := ih u hm
        exact ⟨t, List.mem_cons_of_mem a ht, h1, h2⟩

theorem deleteTask_sublist (ts : List Task) (id : Int) :
    List.Sublist (deleteTask ts id).1 ts := by
  induction ts with
  | nil => simp [deleteTask]
  | cons a ts ih =>
    by_cases ha : a.id = id
    · simp [deleteTask, ha]
    · simp only [deleteTask, ha, if_false]
      exact List.Sublist.cons₂ a ih

/-- C6: when some task of the list has the given id, `markTaskCompleted` reports success;
the list splits as `pre ++ t :: post` with `t` the first task of that id, and the result
is the same list with `t` replaced by the task of the same id and description and
`completed = true`; in particular the length is the same. -/
theorem markTaskCompleted_present (ts : List Task) (id : Int) (h : ∃ t ∈ ts, t.id = id) :
    ∃ (pre : List Task) (t : Task) (post : List Task),
      ts = pre ++ t :: post ∧ t.id = id ∧ (∀ u ∈ pre, u.id ≠ id) ∧
      markTaskCompleted ts id =
        (pre ++ { id := t.id, description := t.description, completed := true } :: post, true) ∧
      (markTaskCompleted ts id).1.length = ts.length := by
  obtain ⟨pre, t, post, e, hid, hpre⟩ := first_match ts id h
  have hm := markTaskCompleted_split pre t post id hid hpre
  refine ⟨pre, t, post, e, hid, hpre, by rw [e, hm], ?_⟩
  rw [e, hm]
  simp

/-- Witness of C6: completing id 2 in a list of three tasks. -/
theorem markTaskCompleted_present_witness :
    (∃ t ∈ ([⟨1, ['a'], false⟩, ⟨2, ['b'], false⟩, ⟨3, ['c'], true⟩] : List Task), t.id = 2) ∧
    ∃ (pre : List Task) (t : Task) (post : List Task),
      ([⟨1, ['a'], false⟩, ⟨2, ['b'], false⟩, ⟨3, ['c'], true⟩] : List Task) = pre ++ t :: post ∧
      t.id = 2 ∧ (∀ u ∈ pre, u.id ≠ 2) ∧
      markTaskCompleted [⟨1, ['a'], false⟩, ⟨2, ['b'], false⟩, ⟨3, ['c'], true⟩] 2 =
        (pre ++ { id := t.id, description := t.description, completed := true } :: post, true) ∧
      (markTaskCompleted [⟨1, ['a'], false⟩, ⟨2, ['b'], false⟩, ⟨3, ['c'], true⟩] 2).1.length =
        ([⟨1, ['a'], false⟩, ⟨2, ['b'], false⟩, ⟨3, ['c'], true⟩] : List Task).length :=
  ⟨⟨⟨2, ['b'], false⟩, by decide, rfl⟩,
    markTaskCompleted_present _ 2 ⟨⟨2, ['b'], false⟩, by decide, rfl⟩⟩

/-- C7: when some task of the list has the given id, `deleteTask` reports success; the
list splits as `pre ++ t :: post` with `t` the first task of that id, and the result is
`pre ++ post`: one element is gone, the others are unchanged and keep their order. -/
theorem deleteTask_present (ts : List Task) (id : Int) (h : ∃ t ∈ ts, t.id = id) :
    ∃ (pre : List Task) (t : Task) (post : List Task),
      ts = pre ++ t :: post ∧ t.id = id ∧ (∀ u ∈ pre, u.id ≠ id) ∧
      deleteTask ts id = (pre ++ post, true) ∧
      (deleteTask ts id).1.length + 1 = ts.length := by
  obtain ⟨pre, t, post, e, hid, hpre⟩ := first_match ts id h
  have hm := deleteTask_split pre t post id hid hpre
  refine ⟨pre, t, post, e, hid, hpre, by rw [e, hm], ?_⟩
  rw [e, hm]
  simp
  omega

/-- Witness of C7: deleting id 2 from a list of three tasks. -/
theorem deleteTask_present_witness :
    (∃ t ∈ ([⟨1, ['a'], false⟩, ⟨2, ['b'], false⟩, ⟨3, ['c'], true⟩] : List Task), t.id = 2) ∧
    ∃ (pre : List Task) (t : Task) (post : List Task),
      ([⟨1, ['a'], false⟩, ⟨2, ['b'], false⟩, ⟨3, ['c'], true⟩] : List Task) = pre ++ t :: post ∧
      t.id = 2 ∧ (∀ u ∈ pre, u.id ≠ 2) ∧
      deleteTask [⟨1, ['a'], false⟩, ⟨2, ['b'], false⟩, ⟨3, ['c'], true⟩] 2 = (pre ++ post, true) ∧
      (deleteTask [⟨1, ['a'], false⟩, ⟨2, ['b'], false⟩, ⟨3, ['c'], true⟩] 2).1.length + 1 =
        ([⟨1, ['a'], false⟩, ⟨2, ['b'], false⟩, ⟨3, ['c'], true⟩] : List Task).length :=
  ⟨⟨⟨2, ['b'], false⟩, by decide, rfl⟩,
    deleteTask_present _ 2 ⟨⟨2, ['b'], false⟩, by decide, rfl⟩⟩

/-- C9: when no task of the list has the given id, `markTaskCompleted` and `deleteTask`
both report "not found" and return the list as it was. -/
theorem notFound_unchanged (ts : List Task) (id : Int) (h : ∀ t ∈ ts, t.id ≠ id) :
    markTaskCompleted ts id = (ts, false) ∧ deleteTask ts id = (ts, false) :=
  ⟨markTaskCompleted_absent ts id h, deleteTask_absent ts id h⟩

/-- Witness of C9: id 7 in a list holding the ids 1 and 3. -/
theorem notFound_unchanged_witness :
    (∀ t ∈ ([⟨1, ['a'], false⟩, ⟨3, ['c'], true⟩] : List Task), t.id ≠ 7) ∧
    (markTaskCompleted [⟨1, ['a'], false⟩, ⟨3, ['c'], true⟩] 7 =
        ([⟨1, ['a'], false⟩, ⟨3, ['c'], true⟩], false) ∧
      deleteTask [⟨1, ['a'], false⟩, ⟨3, ['c'], true⟩] 7 =
        ([⟨1, ['a'], false⟩, ⟨3, ['c'], true⟩], false)) :=
  ⟨by decide, notFound_unchanged _ 7 (by decide)⟩

/-! ## Runs of Add, Complete and Delete -/

theorem applyOp_inv (s : Store) (op : Op)
    (hnd : (ids s.tasks).Nodup)
    (hlt : ∀ t ∈ s.tasks, INT_MIN ≤ t.id ∧ t.id < s.nextId)
    (hlo : INT_MIN ≤ s.nextId)
    (hadd : s.nextId + (numAdds [op] : Int) ≤ INT_MAX) :
    (ids (applyOp s op).tasks).Nodup ∧
    (∀ t ∈ (applyOp s op).tasks, INT_MIN ≤ t.id ∧ t.id < (applyOp s op).nextId) ∧
    (applyOp s op).nextId = s.nextId + (numAdds [op] : Int) := by
  cases op with
  | add d =>
    have hmax : s.nextId < INT_MAX := by
      simp only [numAdds] at hadd
      omega
    have hw := wrapInt_succ s.nextId hlo hmax
    simp only [applyOp, addTask, hw, numAdds]
    refine ⟨?_, ?_, by simp⟩
    · simp only [ids, List.map_append, List.map_cons, List.map_nil]
      refine List.Nodup.append hnd (List.nodup_singleton _) ?_
      intro i hi hi2
      simp only [List.mem_singleton] at hi2
      obtain ⟨t, ht, e⟩ := List.mem_map.1 hi
      have := (hlt t ht).2
      omega
    · intro t ht
      rcases List.mem_append.1 ht with hm | hm
      · have := hlt t hm
        omega
      · simp only [List.mem_singleton] at hm
        subst hm
        simp only
        omega
  | complete id =>
    simp only [applyOp, numAdds]
    refine ⟨by rw [markTaskCompleted_ids]; exact hnd, ?_, by simp⟩
    intro u hu
    obtain ⟨t, ht, e, _⟩ := markTaskCompleted_mem s.tasks id u hu
    rw [e]
    exact hlt t ht
  | delete id =>
    simp only [applyOp, numAdds]
    refine ⟨?_, ?_, by simp⟩
    · exact List.Nodup.sublist ((deleteTask_sublist s.tasks id).map Task.id) hnd
    · intro u hu
      exact hlt u ((deleteTask_sublist s.tasks id).subset hu)

theorem numAdds_cons (op : Op) (ops : List Op) :
    numAdds (op :: ops) = numAdds [op] + numAdds ops := by
  cases op <;> simp [numAdds]
  omega

theorem runOps_inv (ops : List Op) : ∀ s : Store,
    (ids s.tasks).Nodup →
    (∀ t ∈ s.tasks, INT_MIN ≤ t.id ∧ t.id < s.nextId) →
    INT_MIN ≤ s.nextId →
    s.nextId + (numAdds ops : Int) ≤ INT_MAX →
    (ids (runOps s ops).tasks).Nodup ∧
    (∀ t ∈ (runOps s ops).tasks, INT_MIN ≤ t.id ∧ t.id < (runOps s ops).nextId) ∧
    (runOps s ops).nextId = s.nextId + (numAdds ops : Int) := by
  induction ops with
  | nil =>
    intro s hnd hlt _ _
    exact ⟨hnd, hlt, by simp [runOps, numAdds]⟩
  | cons op ops ih =>
    intro s hnd hlt hlo hadd
    rw [numAdds_cons] at hadd ⊢
    push_cast at hadd ⊢
    have hn0 : (0 : Int) ≤ (numAdds ops : Int) := Int.natCast_nonneg _
    have hn1 : (0 : Int) ≤ (numAdds [op] : Int) := Int.natCast_nonneg _
    obtain ⟨h1, h2, h3⟩ := applyOp_inv s op hnd hlt hlo (by omega)
    obtain ⟨k1, k2, k3⟩ := ih (applyOp s op) h1 h2 (by omega) (by omega)
    have e : runOps s (op :: ops) = runOps (applyOp s op) ops := rfl
    rw [e]
    exact ⟨k1, k2, by rw [k3, h3]; omega⟩

theorem loadTasks_fresh (text : List Char) (s0 : Store)
    (hload : loadTasks emptyStore (some text) = some s0)
    (hmax : ∀ t ∈ s0.tasks, t.id < INT_MAX) :
    (∀ t ∈ s0.tasks, INT_MIN ≤ t.id ∧ t.id < s0.nextId) ∧ 1 ≤ s0.nextId := by
  obtain ⟨new, h1, h2, h3⟩ := loadLines_spec (getLines text) emptyStore s0 hload
  have e : s0.tasks = new := by simpa [emptyStore] using h1
  rw [e] at hmax ⊢
  rw [h3 hmax]
  refine ⟨fun t ht => ⟨(h2 t ht).1, maxNext_gt new _ t ht⟩, ?_⟩
  exact maxNext_ge new emptyStore.nextId

/-- C2, as amended: when the text loaded into the empty store decodes to pairwise
distinct ids, all below `INT_MAX`, and the Add choices that follow do not take the
counter past `INT_MAX`, the ids of the store stay pairwise distinct after any sequence
of Add, Complete and Delete. -/
theorem ids_nodup_after_load (text : List Char) (s0 : Store) (ops : List Op)
    (hload : loadTasks emptyStore (some text) = some s0)
    (hnd : (ids s0.tasks).Nodup)
    (hmax : ∀ t ∈ s0.tasks, t.id < INT_MAX)
    (hadd : s0.nextId + (numAdds ops : Int) ≤ INT_MAX) :
    (ids (runOps s0 ops).tasks).Nodup := by
  obtain ⟨h1, h2⟩ := loadTasks_fresh text s0 hload hmax
  have hlo : INT_MIN ≤ s0.nextId := by
    simp only [INT_MIN]; omega
  exact (runOps_inv ops s0 hnd h1 hlo hadd).1

/-- Witness of C2 as amended: a file of two tasks, then Add, Delete, Complete, Add. -/
theorem ids_nodup_after_load_witness :
    loadTasks emptyStore (some "4|1|a\n2|0|b\n".toList) =
      some ⟨[⟨4, ['a'], true⟩, ⟨2, ['b'], false⟩], 5⟩ ∧
    (ids (⟨[⟨4, ['a'], true⟩, ⟨2, ['b'], false⟩], 5⟩ : Store).tasks).Nodup ∧
    (∀ t ∈ (⟨[⟨4, ['a'], true⟩, ⟨2, ['b'], false⟩], 5⟩ : Store).tasks, t.id < INT_MAX) ∧
    (⟨[⟨4, ['a'], true⟩, ⟨2, ['b'], false⟩], 5⟩ : Store).nextId +
      (numAdds [Op.add ['c'], Op.delete 4, Op.complete 2, Op.add []] : Int) ≤ INT_MAX ∧
    (ids (runOps ⟨[⟨4, ['a'], true⟩, ⟨2, ['b'], false⟩], 5⟩
      [Op.add ['c'], Op.delete 4, Op.complete 2, Op.add []]).tasks).Nodup :=
  ⟨by decide, by decide, by decide, by decide,
    ids_nodup_after_load "4|1|a\n2|0|b\n".toList _ _ (by decide) (by decide) (by decide)
      (by decide)⟩

/-- C2 fails as stated: a file with the id 1 on two lines loads into a store holding the
id 1 twice; and a file with distinct ids one of which is `INT_MAX` wraps the counter, after
which two Adds hand out an id that the file already holds. -/
theorem ids_nodup_counterexample :
    (loadTasks emptyStore (some "1|0|a\n1|0|b\n".toList) =
        some ⟨[⟨1, ['a'], false⟩, ⟨1, ['b'], false⟩], 2⟩ ∧
      ¬ (ids (runOps ⟨[⟨1, ['a'], false⟩, ⟨1, ['b'], false⟩], 2⟩ []).tasks).Nodup) ∧
    (loadTasks emptyStore (some "-2147483647|0|a\n2147483647|0|b\n".toList) =
        some ⟨[⟨-2147483647, ['a'], false⟩, ⟨2147483647, ['b'], false⟩], -2147483648⟩ ∧
      ids (runOps ⟨[⟨-2147483647, ['a'], false⟩, ⟨2147483647, ['b'], false⟩], -2147483648⟩
          [Op.add ['c'], Op.add ['d']]).tasks =
        [-2147483647, 2147483647, -2147483648, -2147483647] ∧
      ¬ (ids (runOps ⟨[⟨-2147483647, ['a'], false⟩, ⟨2147483647, ['b'], false⟩], -2147483648⟩
          [Op.add ['c'], Op.add ['d']]).tasks).Nodup) := by
  refine ⟨⟨by decide, by decide⟩, ⟨by decide, by decide, by decide⟩⟩

/-! ## Deleting twice -/

/-- C8, as amended: in a store whose ids are pairwise distinct, when `deleteTask`
succeeds for an id, a second `deleteTask` with the same id reports "not found" and
returns the list as it was. -/
theorem second_delete_notFound (ts : List Task) (id : Int)
    (hnd : (ids ts).Nodup) (hdel : (deleteTask ts id).2 = true) :
    deleteTask (deleteTask ts id).1 id = ((deleteTask ts id).1, false) := by
  obtain ⟨pre, t, post, e, hid, hpre⟩ := first_match ts id (deleteTask_found ts id hdel)
  rw [e, deleteTask_split pre t post id hid hpre]
  apply deleteTask_absent
  intro u hu
  rcases List.mem_append.1 hu with hm | hm
  · exact hpre u hm
  · intro hu2
    rw [e] at hnd
    simp only [ids, List.map_append, List.map_cons] at hnd
    have h3 := (List.nodup_cons.1 (List.nodup_append.1 hnd).2.1).1
    apply h3
    rw [hid, ← hu2]
    exact List.mem_map_of_mem Task.id hm

/-- Witness of C8 as amended: deleting id 2 twice from a list with the ids 1, 2, 3. -/
theorem second_delete_notFound_witness :
    (ids [⟨1, ['a'], false⟩, ⟨2, ['b'], false⟩, ⟨3, ['c'], true⟩]).Nodup ∧
    (deleteTask [⟨1, ['a'], false⟩, ⟨2, ['b'], false⟩, ⟨3, ['c'], true⟩] 2).2 = true ∧
    deleteTask (deleteTask [⟨1, ['a'], false⟩, ⟨2, ['b'], false⟩, ⟨3, ['c'], true⟩] 2).1 2 =
      ((deleteTask [⟨1, ['a'], false⟩, ⟨2, ['b'], false⟩, ⟨3, ['c'], true⟩] 2).1, false) :=
  ⟨by decide, by decide, second_delete_notFound _ 2 (by decide) (by decide)⟩

/-- C8 fails as stated: the file below loads, with no further operation the store holds
the id 1 twice; the first Delete of 1 succeeds, and the second one succeeds again and
removes the other task. -/
theorem second_delete_counterexample :
    loadTasks emptyStore (some "1|0|a\n1|1|b\n".toList) =
      some ⟨[⟨1, ['a'], false⟩, ⟨1, ['b'], true⟩], 2⟩ ∧
    runOps ⟨[⟨1, ['a'], false⟩, ⟨1, ['b'], true⟩], 2⟩ [] =
      ⟨[⟨1, ['a'], false⟩, ⟨1, ['b'], true⟩], 2⟩ ∧
    deleteTask [⟨1, ['a'], false⟩, ⟨1, ['b'], true⟩] 1 = ([⟨1, ['b'], true⟩], true) ∧
    deleteTask [⟨1, ['b'], true⟩] 1 = ([], true) := by
  refine ⟨by decide, by decide, by decide, by decide⟩

/-! ## Sequences of Add -/

theorem adds_new_ids (ds : List (List Char)) : ∀ s : Store,
    INT_MIN ≤ s.nextId → s.nextId + (ds.length : Int) ≤ INT_MAX + 1 →
    ∃ new : List Task, (runOps s (ds.map Op.add)).tasks = s.tasks ++ new ∧
      new.length = ds.length ∧ (ids new).Pairwise (· < ·) ∧ ∀ i ∈ ids new, s.nextId ≤ i := by
  induction ds with
  | nil =>
    intro s _ _
    exact ⟨[], by simp [runOps], rfl, by simp [ids], by simp [ids]⟩
  | cons d ds ih =>
    intro s hlo hhi
    have e : runOps s ((d :: ds).map Op.add) = runOps (addTask s d) (ds.map Op.add) := rfl
    rw [e]
    cases ds with
    | nil =>
      refine ⟨[⟨s.nextId, d, false⟩], by simp [runOps, addTask], rfl, by simp [ids], ?_⟩
      intro i hi
      simp only [ids, List.map_cons, List.map_nil, List.mem_singleton] at hi
      omega
    | cons d2 ds2 =>
      have hlen : ((d :: d2 :: ds2).length : Int) = ((d2 :: ds2).length : Int) + 1 := by
        simp
      have hn0 : (0 : Int) ≤ (ds2.length : Int) := Int.natCast_nonneg _
      have hlen2 : ((d2 :: ds2).length : Int) = (ds2.length : Int) + 1 := by simp
      have hmax : s.nextId < INT_MAX := by omega
      have hw : (addTask s d).nextId = s.nextId + 1 := wrapInt_succ s.nextId hlo hmax
      obtain ⟨new, h1, h2, h3, h4⟩ := ih (addTask s d) (by rw [hw]; omega) (by rw [hw]; omega)
      refine ⟨⟨s.nextId, d, false⟩ :: new, ?_, by simp [h2], ?_, ?_⟩
      · rw [h1]
        simp [addTask]
      · simp only [ids, List.map_cons, List.pairwise_cons]
        refine ⟨?_, h3⟩
        intro i hi
        have := h4 i hi
        omega
      · intro i hi
        simp only [ids, List.map_cons, List.mem_cons] at hi
        rcases hi with e2 | hm
        · omega
        · have := h4 i hm
          omega

/-- C5, as amended: from a store whose counter is a 32-bit `int`, when the Add calls do not
hand out an id past `INT_MAX`, every call appends one task, and the ids of the new tasks
are strictly increasing in call order and pairwise distinct. -/
theorem add_ids_increasing (s : Store) (ds : List (List Char))
    (hlo : INT_MIN ≤ s.nextId) (hhi : s.nextId + (ds.length : Int) ≤ INT_MAX + 1) :
    (runOps s (ds.map Op.add)).tasks.take s.tasks.length = s.tasks ∧
    (ids ((runOps s (ds.map Op.add)).tasks.drop s.tasks.length)).length = ds.length ∧
    (ids ((runOps s (ds.map Op.add)).tasks.drop s.tasks.length)).Pairwise (· < ·) ∧
    (ids ((runOps s (ds.map Op.add)).tasks.drop s.tasks.length)).Nodup := by
  obtain ⟨new, h1, h2, h3, _⟩ := adds_new_ids ds s hlo hhi
  rw [h1, List.drop_left, List.take_left]
  refine ⟨rfl, by simp [ids, h2], h3, ?_⟩
  exact h3.imp (fun h => ne_of_lt h)

/-- Witness of C5 as amended: three Adds on a store holding one task. -/
theorem add_ids_increasing_witness :
    INT_MIN ≤ (⟨[⟨4, ['a'], true⟩], 7⟩ : Store).nextId ∧
    (⟨[⟨4, ['a'], true⟩], 7⟩ : Store).nextId + (([['x'], [], ['y']] : List (List Char)).length : Int)
      ≤ INT_MAX + 1 ∧
    ((runOps ⟨[⟨4, ['a'], true⟩], 7⟩ ([['x'], [], ['y']].map Op.add)).tasks.take
        (⟨[⟨4, ['a'], true⟩], 7⟩ : Store).tasks.length = (⟨[⟨4, ['a'], true⟩], 7⟩ : Store).tasks ∧
      (ids ((runOps ⟨[⟨4, ['a'], true⟩], 7⟩ ([['x'], [], ['y']].map Op.add)).tasks.drop
        (⟨[⟨4, ['a'], true⟩], 7⟩ : Store).tasks.length)).length
        = ([['x'], [], ['y']] : List (List Char)).length ∧
      (ids ((runOps ⟨[⟨4, ['a'], true⟩], 7⟩ ([['x'], [], ['y']].map Op.add)).tasks.drop
        (⟨[⟨4, ['a'], true⟩], 7⟩ : Store).tasks.length)).Pairwise (· < ·) ∧
      (ids ((runOps ⟨[⟨4, ['a'], true⟩], 7⟩ ([['x'], [], ['y']].map Op.add)).tasks.drop
        (⟨[⟨4, ['a'], true⟩], 7⟩ : Store).tasks.length)).Nodup) :=
  ⟨by decide, by decide, add_ids_increasing _ _ (by decide) (by decide)⟩

/-- C5 fails as stated: the file below leaves the counter at `INT_MAX`; the two Adds that
follow hand out `INT_MAX` and then `INT_MIN`, which is not an increase. -/
theorem add_ids_counterexample :
    loadTasks emptyStore (some "2147483646|0|x".toList) =
      some ⟨[⟨2147483646, ['x'], false⟩], 2147483647⟩ ∧
    ids ((runOps ⟨[⟨2147483646, ['x'], false⟩], 2147483647⟩
        ([['a'], ['b']].map Op.add)).tasks.drop 1) = [2147483647, -2147483648] ∧
    ¬ (ids ((runOps ⟨[⟨2147483646, ['x'], false⟩], 2147483647⟩
        ([['a'], ['b']].map Op.add)).tasks.drop 1)).Pairwise (· < ·) := by
  refine ⟨by decide, by decide, ?_⟩
  have e : ids ((runOps ⟨[⟨2147483646, ['x'], false⟩], 2147483647⟩
        ([['a'], ['b']].map Op.add)).tasks.drop 1) = [2147483647, -2147483648] := by decide
  rw [e]
  simp

/-! ## The counter along a run with loads -/

theorem loadTasks_spec (s s1 : Store) (file : Option (List Char))
    (h : loadTasks s file = some s1) :
    ∃ new : List Task, s1.tasks = s.tasks ++ new ∧ InRange new ∧
      ((∀ t ∈ new, t.id < INT_MAX) → s1.nextId = maxNext s.nextId new) := by
  cases file with
  | none =>
    simp only [loadTasks] at h
    have e := Option.some.inj h
    subst e
    exact ⟨[], by simp, by simp [InRange], fun _ => rfl⟩
  | some text => exact loadLines_spec (getLines text) s s1 h

theorem applyAction_inv (s s1 : Store) (a : Action)
    (hinv : ∀ t ∈ s.tasks, t.id < s.nextId) (hlo : INT_MIN ≤ s.nextId)
    (hstep : applyAction s a = some s1) (hno : stepNoOverflow s a s1 = true) :
    (∀ t ∈ s1.tasks, t.id < s1.nextId) ∧ s.nextId ≤ s1.nextId ∧
    (∀ d, a = Action.op (Op.add d) → s.nextId < s1.nextId) := by
  cases a with
  | op o =>
    simp only [applyAction, Option.some.injEq] at hstep
    subst hstep
    cases o with
    | add d =>
      simp only [stepNoOverflow, decide_eq_true_eq] at hno
      have hw := wrapInt_succ s.nextId hlo hno
      simp only [applyOp, addTask, hw]
      refine ⟨?_, by omega, fun _ _ => by omega⟩
      intro t ht
      rcases List.mem_append.1 ht with hm | hm
      · have := hinv t hm
        omega
      · simp only [List.mem_singleton] at hm
        subst hm
        simp only
        omega
    | complete id =>
      simp only [applyOp]
      refine ⟨?_, le_refl _, fun d hd => by simp at hd⟩
      intro u hu
      obtain ⟨t, ht, e, _⟩ := markTaskCompleted_mem s.tasks id u hu
      rw [e]
      exact hinv t ht
    | delete id =>
      simp only [applyOp]
      refine ⟨?_, le_refl _, fun d hd => by simp at hd⟩
      intro u hu
      exact hinv u ((deleteTask_sublist s.tasks id).subset hu)
  | load file =>
    simp only [applyAction] at hstep
    obtain ⟨new, h1, _, h3⟩ := loadTasks_spec s s1 file hstep
    simp only [stepNoOverflow, h1, List.drop_left, List.all_eq_true, decide_eq_true_eq] at hno
    have hn := h3 hno
    have hge := maxNext_ge new s.nextId
    refine ⟨?_, by rw [hn]; exact hge, fun d hd => by simp at hd⟩
    intro t ht
    rw [h1] at ht
    rw [hn]
    rcases List.mem_append.1 ht with hm | hm
    · have := hinv t hm
      omega
    · exact maxNext_gt new s.nextId t hm

theorem runActions_inv (as : List Action) : ∀ s s2 : Store,
    (∀ t ∈ s.tasks, t.id < s.nextId) → INT_MIN ≤ s.nextId →
    noOverflow s as = true → runActions s as = some s2 →
    (∀ t ∈ s2.tasks, t.id < s2.nextId) ∧ s.nextId ≤ s2.nextId ∧
    (∀ i ∈ issuedIds s as, i < s2.nextId) := by
  induction as with
  | nil =>
    intro s s2 hinv _ _ hrun
    simp only [runActions, Option.some.injEq] at hrun
    subst hrun
    exact ⟨hinv, le_refl _, by simp [issuedIds]⟩
  | cons a rest ih =>
    intro s s2 hinv hlo hno hrun
    cases hst : applyAction s a with
    | none => simp [runActions, hst] at hrun
    | some s1 =>
      simp only [runActions, hst] at hrun
      simp only [noOverflow, hst, Bool.and_eq_true] at hno
      obtain ⟨k1, k2, k3⟩ := applyAction_inv s s1 a hinv hlo hst hno.1
      obtain ⟨r1, r2, r3⟩ := ih s1 s2 k1 (le_trans hlo k2) hno.2 hrun
      refine ⟨r1, le_trans k2 r2, ?_⟩
      intro i hi
      simp only [issuedIds, hst] at hi
      split at hi
      · rename_i d
        rcases List.mem_cons.1 hi with e | hm
        · have := k3 d rfl
          omega
        · exact r3 i hm
      · exact r3 i hi

theorem runActions_split (as1 : List Action) : ∀ (s s1 s2 : Store) (as2 : List Action),
    runActions s as1 = some s1 → runActions s (as1 ++ as2) = some s2 →
    noOverflow s (as1 ++ as2) = true →
    runActions s1 as2 = some s2 ∧ noOverflow s as1 = true ∧ noOverflow s1 as2 = true := by
  induction as1 with
  | nil =>
    intro s s1 s2 as2 h1 h2 hno
    simp only [runActions, Option.some.injEq] at h1
    subst h1
    exact ⟨h2, rfl, hno⟩
  | cons a rest ih =>
    intro s s1 s2 as2 h1 h2 hno
    cases hst : applyAction s a with
    | none => simp [runActions, hst] at h1
    | some s3 =>
      simp only [runActions, hst] at h1
      simp only [List.cons_append, runActions, hst] at h2
      simp only [List.cons_append, noOverflow, hst, Bool.and_eq_true] at hno
      obtain ⟨r1, r2, r3⟩ := ih s3 s1 s2 as2 h1 h2 hno.2
      refine ⟨r1, ?_, r3⟩
      simp only [noOverflow, hst, Bool.and_eq_true]
      exact ⟨hno.1, r2⟩

/-- C3, as amended: start from a store whose counter is a 32-bit `int` above every stored
id, and run any sequence of Add, Complete, Delete and load in which every load succeeds and
no step overflows (no Add at `nextId = INT_MAX`, no load of the id `INT_MAX`).  Then
`nextId` is above every id in the final store, above every id an Add of the run handed
out, and above every id that was in the store at any earlier point of the run (deleted
since or not); it never went down; and Complete and Delete leave it as it is. -/
theorem counter_invariant (s s2 : Store) (as : List Action)
    (hinv : ∀ t ∈ s.tasks, t.id < s.nextId) (hlo : INT_MIN ≤ s.nextId)
    (hno : noOverflow s as = true) (hrun : runActions s as = some s2) :
    (∀ t ∈ s2.tasks, t.id < s2.nextId) ∧
    (∀ i ∈ issuedIds s as, i < s2.nextId) ∧
    (∀ (as1 as2 : List Action) (s1 : Store), as = as1 ++ as2 → runActions s as1 = some s1 →
      s1.nextId ≤ s2.nextId ∧ ∀ t ∈ s1.tasks, t.id < s2.nextId) ∧
    (∀ (st : Store) (id : Int), (applyOp st (Op.complete id)).nextId = st.nextId ∧
      (applyOp st (Op.delete id)).nextId = st.nextId) := by
  obtain ⟨h1, _, h3⟩ := runActions_inv as s s2 hinv hlo hno hrun
  refine ⟨h1, h3, ?_, fun st id => ⟨rfl, rfl⟩⟩
  intro as1 as2 s1 e hr1
  subst e
  obtain ⟨r1, r2, r3⟩ := runActions_split as1 s s1 s2 as2 hr1 hrun hno
  obtain ⟨k1, k2, _⟩ := runActions_inv as1 s s1 hinv hlo r2 hr1
  obtain ⟨_, m2, _⟩ := runActions_inv as2 s1 s2 k1 (le_trans hlo k2) r3 r1
  refine ⟨m2, fun t ht => ?_⟩
  have := k1 t ht
  omega

/-- Witness of C3 as amended: Add, load of a two-line file, Delete, Add, Complete. -/
theorem counter_invariant_witness :
    (∀ t ∈ emptyStore.tasks, t.id < emptyStore.nextId) ∧ INT_MIN ≤ emptyStore.nextId ∧
    noOverflow emptyStore [Action.op (Op.add ['a']), Action.load (some "7|0|b\n3|1|c\n".toList),
      Action.op (Op.delete 7), Action.op (Op.add ['d']), Action.op (Op.complete 1)] = true ∧
    runActions emptyStore [Action.op (Op.add ['a']), Action.load (some "7|0|b\n3|1|c\n".toList),
      Action.op (Op.delete 7), Action.op (Op.add ['d']), Action.op (Op.complete 1)] =
      some ⟨[⟨1, ['a'], true⟩, ⟨3, ['c'], true⟩, ⟨8, ['d'], false⟩], 9⟩ ∧
    ((∀ t ∈ (⟨[⟨1, ['a'], true⟩, ⟨3, ['c'], true⟩, ⟨8, ['d'], false⟩], 9⟩ : Store).tasks,
        t.id < (9 : Int)) ∧
      (∀ i ∈ issuedIds emptyStore [Action.op (Op.add ['a']),
          Action.load (some "7|0|b\n3|1|c\n".toList), Action.op (Op.delete 7),
          Action.op (Op.add ['d']), Action.op (Op.complete 1)], i < (9 : Int)) ∧
      (∀ (as1 as2 : List Action) (s1 : Store),
        [Action.op (Op.add ['a']), Action.load (some "7|0|b\n3|1|c\n".toList),
          Action.op (Op.delete 7), Action.op (Op.add ['d']), Action.op (Op.complete 1)]
          = as1 ++ as2 →
        runActions emptyStore as1 = some s1 →
        s1.nextId ≤ (9 : Int) ∧ ∀ t ∈ s1.tasks, t.id < (9 : Int)) ∧
      (∀ (st : Store) (id : Int), (applyOp st (Op.complete id)).nextId = st.nextId ∧
        (applyOp st (Op.delete id)).nextId = st.nextId)) :=
  ⟨by decide, by decide, by decide, by decide,
    counter_invariant emptyStore ⟨[⟨1, ['a'], true⟩, ⟨3, ['c'], true⟩, ⟨8, ['d'], false⟩], 9⟩ _
      (by decide) (by decide) (by decide) (by decide)⟩

/-- C3 fails as stated: loading a file that holds the id `INT_MAX` into the empty store
wraps the counter to `INT_MIN`, below the id just stored; and an Add made with the
counter at `INT_MAX` hands out `INT_MAX` and leaves the counter at `INT_MIN`. -/
theorem counter_invariant_counterexample :
    ((∀ t ∈ emptyStore.tasks, t.id < emptyStore.nextId) ∧
      runActions emptyStore [Action.load (some "2147483647|0|x".toList)] =
        some ⟨[⟨2147483647, ['x'], false⟩], -2147483648⟩ ∧
      ¬ (∀ t ∈ (⟨[⟨2147483647, ['x'], false⟩], -2147483648⟩ : Store).tasks,
          t.id < (-2147483648 : Int))) ∧
    ((∀ t ∈ (⟨[], 2147483647⟩ : Store).tasks, t.id < (2147483647 : Int)) ∧
      runActions ⟨[], 2147483647⟩ [Action.op (Op.add ['x'])] =
        some ⟨[⟨2147483647, ['x'], false⟩], -2147483648⟩ ∧
      issuedIds ⟨[], 2147483647⟩ [Action.op (Op.add ['x'])] = [2147483647] ∧
      ¬ ((2147483647 : Int) < -2147483648)) := by
  refine ⟨⟨by decide, by decide, by decide⟩, ⟨by decide, by decide, by decide, by decide⟩⟩

/-! ## Save, then load into a fresh store -/

theorem applyOp_descriptions (s : Store) (op : Op)
    (hs : ∀ t ∈ s.tasks, '\n' ∉ t.description)
    (hop : ∀ x, op = Op.add x → '\n' ∉ x) :
    ∀ t ∈ (applyOp s op).tasks, '\n' ∉ t.description := by
  cases op with
  | add d =>
    intro t ht
    simp only [applyOp, addTask] at ht
    rcases List.mem_append.1 ht with hm | hm
    · exact hs t hm
    · simp only [List.mem_singleton] at hm
      subst hm
      exact hop d rfl
  | complete id =>
    intro u hu
    obtain ⟨t, ht, _, e⟩ := markTaskCompleted_mem s.tasks id u hu
    rw [e]
    exact hs t ht
  | delete id =>
    intro u hu
    exact hs u ((deleteTask_sublist s.tasks id).subset hu)

theorem runOps_descriptions (ops : List Op) : ∀ s : Store,
    (∀ t ∈ s.tasks, '\n' ∉ t.description) →
    (∀ x, Op.add x ∈ ops → '\n' ∉ x) →
    ∀ t ∈ (runOps s ops).tasks, '\n' ∉ t.description := by
  induction ops with
  | nil => intro s hs _; exact hs
  | cons op ops ih =>
    intro s hs hops
    have e : runOps s (op :: ops) = runOps (applyOp s op) ops := rfl
    rw [e]
    apply ih
    · exact applyOp_descriptions s op hs
        (fun x hx => hops x (hx ▸ List.mem_cons_self op ops))
    · exact fun x hx => hops x (List.mem_cons_of_mem op hx)

/-- C4, as amended: take a store reached from the empty store by Add, Complete and Delete
with newline-free descriptions and fewer than `INT_MAX` Adds; save it and load the text
into a fresh store.  The load succeeds and gives the saved tasks, its counter is strictly
above the id of every task that was in the store when it was saved, and the next Add
hands out that counter.  Nothing is said of the ids of tasks deleted before the save. -/
theorem restart_next_id (ops : List Op) (d : List Char)
    (hnl : ∀ x, Op.add x ∈ ops → '\n' ∉ x)
    (hcount : (numAdds ops : Int) < INT_MAX) :
    ∃ s1 : Store,
      loadTasks emptyStore (some (saveTasks (runOps emptyStore ops).tasks)) = some s1 ∧
      s1.tasks = (runOps emptyStore ops).tasks ∧
      (∀ t ∈ (runOps emptyStore ops).tasks, t.id < s1.nextId) ∧
      (addTask s1 d).tasks = s1.tasks ++ [⟨s1.nextId, d, false⟩] := by
  have hinv := runOps_inv ops emptyStore (by simp [emptyStore, ids]) (by simp [emptyStore])
    (by decide) (by simp only [emptyStore]; omega)
  obtain ⟨_, h2, h3⟩ := hinv
  have hn0 : (0 : Int) ≤ (numAdds ops : Int) := Int.natCast_nonneg _
  have hnext : (runOps emptyStore ops).nextId ≤ INT_MAX := by
    rw [h3]; simp only [emptyStore]; omega
  have hr : InRange (runOps emptyStore ops).tasks := by
    intro t ht
    have := h2 t ht
    exact ⟨this.1, by omega⟩
  have hdesc := runOps_descriptions ops emptyStore (by simp [emptyStore]) hnl
  obtain ⟨s1, k1, k2⟩ := load_save (runOps emptyStore ops).tasks emptyStore hr hdesc
  have k3 : s1.tasks = (runOps emptyStore ops).tasks := by simpa [emptyStore] using k2
  obtain ⟨new, m1, _, m3⟩ := loadTasks_spec emptyStore s1 _ k1
  have m4 : new = (runOps emptyStore ops).tasks := by
    rw [← k3, m1]; simp [emptyStore]
  refine ⟨s1, k1, k3, ?_, rfl⟩
  intro t ht
  have hlt : ∀ u ∈ new, u.id < INT_MAX := by
    intro u hu
    rw [m4] at hu
    have := h2 u hu
    omega
  rw [m3 hlt]
  exact maxNext_gt new _ t (by rw [m4]; exact ht)

/-- Witness of C4 as amended: Add, Add, Delete of the first, then save and load. -/
theorem restart_next_id_witness :
    (∀ x, Op.add x ∈ [Op.add ['a'], Op.add ['b'], Op.delete 1] → '\n' ∉ x) ∧
    ((numAdds [Op.add ['a'], Op.add ['b'], Op.delete 1] : Nat) : Int) < INT_MAX ∧
    ∃ s1 : Store,
      loadTasks emptyStore
        (some (saveTasks (runOps emptyStore [Op.add ['a'], Op.add ['b'], Op.delete 1]).tasks))
        = some s1 ∧
      s1.tasks = (runOps emptyStore [Op.add ['a'], Op.add ['b'], Op.delete 1]).tasks ∧
      (∀ t ∈ (runOps emptyStore [Op.add ['a'], Op.add ['b'], Op.delete 1]).tasks,
        t.id < s1.nextId) ∧
      (addTask s1 ['c']).tasks = s1.tasks ++ [⟨s1.nextId, ['c'], false⟩] :=
  ⟨by intro x hx; simp at hx; rcases hx with rfl | rfl <;> decide, by decide,
    restart_next_id _ ['c'] (by intro x hx; simp at hx; rcases hx with rfl | rfl <;> decide)
      (by decide)⟩

/-- C4 fails as stated: after Add, Add, Delete of id 2 the ids 1 and 2 have been handed
out and the store holds the task 1 alone; the saved text loads into a fresh store with
`nextId = 2`, and the next Add hands out the id 2 a second time. -/
theorem restart_counterexample :
    runOps emptyStore [Op.add ['a'], Op.add ['b'], Op.delete 2] = ⟨[⟨1, ['a'], false⟩], 3⟩ ∧
    issuedIds emptyStore
      [Action.op (Op.add ['a']), Action.op (Op.add ['b']), Action.op (Op.delete 2)] = [1, 2] ∧
    saveTasks [⟨1, ['a'], false⟩] = "1|0|a\n".toList ∧
    loadTasks emptyStore (some (saveTasks [⟨1, ['a'], false⟩])) =
      some ⟨[⟨1, ['a'], false⟩], 2⟩ ∧
    addTask ⟨[⟨1, ['a'], false⟩], 2⟩ ['c'] =
      ⟨[⟨1, ['a'], false⟩, ⟨2, ['c'], false⟩], 3⟩ := by
  refine ⟨by decide, by decide, by decide, by decide, by decide⟩

/-! ## The counter after a load -/

theorem maxNext_mem (ts : List Task) : ∀ n : Int,
    maxNext n ts = n ∨ ∃ t ∈ ts, maxNext n ts = t.id + 1 := by
  induction ts with
  | nil => intro n; left; rfl
  | cons u ts ih =>
    intro n
    have e : maxNext n (u :: ts) = maxNext (max n (u.id + 1)) ts := rfl
    rw [e]
    rcases ih (max n (u.id + 1)) with h | ⟨t, ht, h⟩
    · rw [h]
      rcases le_total n (u.id + 1) with hle | hle
      · right
        exact ⟨u, List.mem_cons_self u ts, max_eq_right hle⟩
      · left
        exact max_eq_left hle
    · right
      exact ⟨t, List.mem_cons_of_mem u ht, h⟩

/-- C10, as amended: when a load succeeds and appends the tasks `new`, all with ids
below `INT_MAX`, the counter afterwards is the maximum of the counter before and the
largest appended id plus one: it is at least the old counter, at least every appended id
plus one, and equal to one of these values.  The file `5|1|Buy milk` loaded into the
fresh store gives `nextId = 6`, and the next Add hands out the id 6. -/
theorem loadTasks_counter (s s1 : Store) (text : List Char) (new : List Task)
    (hload : loadTasks s (some text) = some s1) (hnew : s1.tasks = s.tasks ++ new)
    (hlt : ∀ t ∈ new, t.id < INT_MAX) :
    (s.nextId ≤ s1.nextId ∧
      (∀ t ∈ new, t.id + 1 ≤ s1.nextId) ∧
      (s1.nextId = s.nextId ∨ ∃ t ∈ new, s1.nextId = t.id + 1)) ∧
    (loadTasks emptyStore (some "5|1|Buy milk".toList) =
        some ⟨[⟨5, "Buy milk".toList, true⟩], 6⟩ ∧
      ∀ d : List Char, addTask ⟨[⟨5, "Buy milk".toList, true⟩], 6⟩ d =
        ⟨[⟨5, "Buy milk".toList, true⟩, ⟨6, d, false⟩], 7⟩) := by
  obtain ⟨new2, m1, _, m3⟩ := loadTasks_spec s s1 _ hload
  have e : new2 = new := List.append_cancel_left (m1.symm.trans hnew)
  subst e
  have hn := m3 hlt
  refine ⟨⟨?_, ?_, ?_⟩, by decide, fun d => ?_⟩
  · rw [hn]; exact maxNext_ge new2 s.nextId
  · intro t ht
    have := maxNext_gt new2 s.nextId t ht
    rw [hn]
    omega
  · rw [hn]; exact maxNext_mem new2 s.nextId
  · simp only [addTask, List.singleton_append, List.cons_append, List.nil_append]
    have : wrapInt (6 + 1) = 7 := by decide
    rw [this]

/-- Witness of C10 as amended: a three-line file loaded into a store with counter 4. -/
theorem loadTasks_counter_witness :
    loadTasks ⟨[⟨3, ['a'], false⟩], 4⟩ (some "9|0|b\noops\n2|1|c\n".toList) =
      some ⟨[⟨3, ['a'], false⟩, ⟨9, ['b'], false⟩, ⟨2, ['c'], true⟩], 10⟩ ∧
    (⟨[⟨3, ['a'], false⟩, ⟨9, ['b'], false⟩, ⟨2, ['c'], true⟩], 10⟩ : Store).tasks =
      (⟨[⟨3, ['a'], false⟩], 4⟩ : Store).tasks ++ [⟨9, ['b'], false⟩, ⟨2, ['c'], true⟩] ∧
    (∀ t ∈ ([⟨9, ['b'], false⟩, ⟨2, ['c'], true⟩] : List Task), t.id < INT_MAX) ∧
    (((4 : Int) ≤ 10 ∧
      (∀ t ∈ ([⟨9, ['b'], false⟩, ⟨2, ['c'], true⟩] : List Task), t.id + 1 ≤ (10 : Int)) ∧
      ((10 : Int) = 4 ∨ ∃ t ∈ ([⟨9, ['b'], false⟩, ⟨2, ['c'], true⟩] : List Task),
        (10 : Int) = t.id + 1)) ∧
    (loadTasks emptyStore (some "5|1|Buy milk".toList) =
        some ⟨[⟨5, "Buy milk".toList, true⟩], 6⟩ ∧
      ∀ d : List Char, addTask ⟨[⟨5, "Buy milk".toList, true⟩], 6⟩ d =
        ⟨[⟨5, "Buy milk".toList, true⟩, ⟨6, d, false⟩], 7⟩)) :=
  ⟨by decide, by decide, by decide,
    loadTasks_counter ⟨[⟨3, ['a'], false⟩], 4⟩
      ⟨[⟨3, ['a'], false⟩, ⟨9, ['b'], false⟩, ⟨2, ['c'], true⟩], 10⟩
      "9|0|b\noops\n2|1|c\n".toList [⟨9, ['b'], false⟩, ⟨2, ['c'], true⟩]
      (by decide) (by decide) (by decide)⟩

/-- C10 fails as stated: the file `2147483647|0|x` loads into the fresh store, whose
counter is 1, and leaves the counter at `INT_MIN`: it went down, and it is not the
largest decoded id plus one. -/
theorem loadTasks_counter_counterexample :
    loadTasks emptyStore (some "2147483647|0|x".toList) =
      some ⟨[⟨2147483647, ['x'], false⟩], -2147483648⟩ ∧
    ¬ (emptyStore.nextId ≤ (-2147483648 : Int)) ∧
    ¬ ((-2147483648 : Int) = max emptyStore.nextId (2147483647 + 1)) := by
  refine ⟨by decide, by decide, by decide⟩

/-! ## The shape of a line -/

theorem findIdx_none (c : Char) (xs : List Char) (h : c ∉ xs) : findIdx c xs = none := by
  induction xs with
  | nil => rfl
  | cons x xs ih =>
    have hx : x ≠ c := fun e => h (e ▸ List.mem_cons_self x xs)
    have hxs : c ∉ xs := fun m => h (List.mem_cons_of_mem x m)
    simp [findIdx, hx, ih hxs]

theorem split_first (c : Char) (xs : List Char) (h : c ∈ xs) :
    ∃ pre post : List Char, xs = pre ++ c :: post ∧ c ∉ pre := by
  induction xs with
  | nil => simp at h
  | cons x xs ih =>
    by_cases hx : x = c
    · exact ⟨[], xs, by simp [hx], by simp⟩
    · have hm : c ∈ xs := by
        rcases List.mem_cons.1 h with e | hm
        · exact absurd e.symm hx
        · exact hm
      obtain ⟨pre, post, e, hpre⟩ := ih hm
      refine ⟨x :: pre, post, by simp [e], ?_⟩
      intro hc
      rcases List.mem_cons.1 hc with e2 | hm2
      · exact hx e2.symm
      · exact hpre hm2

theorem barCount_fields (a b d : List Char) (ha : '|' ∉ a) (hb : '|' ∉ b) :
    barCount (a ++ '|' :: (b ++ '|' :: d)) = barCount d + 2 := by
  have h1 : List.count '|' a = 0 := List.count_eq_zero_of_not_mem ha
  have h2 : List.count '|' b = 0 := List.count_eq_zero_of_not_mem hb
  simp [barCount, List.count_append, List.count_cons, h1, h2]

theorem idSegment_fields (a rest : List Char) (ha : '|' ∉ a) :
    idSegment (a ++ '|' :: rest) = a := by
  induction a with
  | nil => simp [idSegment, List.takeWhile]
  | cons x xs ih =>
    have hx : x ≠ '|' := fun e => ha (e ▸ List.mem_cons_self x xs)
    have hxs : '|' ∉ xs := fun m => ha (List.mem_cons_of_mem x m)
    have h2 := ih hxs
    simp [idSegment] at h2
    simp [idSegment, List.takeWhile, hx, h2]

theorem loadLine_no_bar (s : Store) (line : List Char) (h : '|' ∉ line) :
    loadLine s line = some s := by
  have h1 : find line '|' 0 = none := by
    simp [find, findIdx_none _ _ h]
  simp only [loadLine, h1]

theorem loadLine_one_bar (s : Store) (a rest : List Char) (ha : '|' ∉ a) (hr : '|' ∉ rest) :
    loadLine s (a ++ '|' :: rest) = some s := by
  have h1 : find (a ++ '|' :: rest) '|' 0 = some a.length := by
    simp [find, findIdx_append _ _ _ ha]
  have h2 : find (a ++ '|' :: rest) '|' (a.length + 1) = none := by
    simp only [find, drop_length_succ, findIdx_none _ _ hr, Option.map_none']
  simp only [loadLine, h1, h2]

theorem line_shape (line : List Char) :
    (barCount line < 2 ∧ ∀ s : Store, loadLine s line = some s) ∨
    ∃ a b d : List Char, line = a ++ '|' :: (b ++ '|' :: d) ∧ '|' ∉ a ∧ '|' ∉ b := by
  by_cases h : '|' ∈ line
  · obtain ⟨a, rest, e, ha⟩ := split_first '|' line h
    by_cases h2 : '|' ∈ rest
    · obtain ⟨b, d, e2, hb⟩ := split_first '|' rest h2
      right
      exact ⟨a, b, d, by rw [e, e2], ha, hb⟩
    · left
      refine ⟨?_, fun s => by rw [e]; exact loadLine_one_bar s a rest ha h2⟩
      have h1 : List.count '|' a = 0 := List.count_eq_zero_of_not_mem ha
      have h3 : List.count '|' rest = 0 := List.count_eq_zero_of_not_mem h2
      rw [e]
      simp [barCount, List.count_append, List.count_cons, h1, h3]
  · left
    refine ⟨?_, fun s => loadLine_no_bar s line h⟩
    have h1 : List.count '|' line = 0 := List.count_eq_zero_of_not_mem h
    simp [barCount, h1]

theorem loadLine_few_bars (s : Store) (line : List Char) (h : barCount line < 2) :
    loadLine s line = some s := by
  rcases line_shape line with ⟨_, h2⟩ | ⟨a, b, d, e, ha, hb⟩
  · exact h2 s
  · rw [e, barCount_fields a b d ha hb] at h
    omega

theorem loadLine_pushTask (s : Store) (a b d : List Char) (ha : '|' ∉ a) (hb : '|' ∉ b) :
    loadLine s (a ++ '|' :: (b ++ '|' :: d)) =
      (stoi a).map (fun id =>
        pushTask s { id := id, description := d, completed := decide (b = ['1']) }) := by
  rw [loadLine_fields s a b d ha hb]
  cases stoi a <;> rfl

theorem loadLines_filter (lines : List (List Char)) : ∀ s : Store,
    loadLines s (lines.filter (fun l => decide (2 ≤ barCount l))) = loadLines s lines := by
  induction lines with
  | nil => intro s; rfl
  | cons line rest ih =>
    intro s
    by_cases h : 2 ≤ barCount line
    · simp only [List.filter, h, decide_True, loadLines]
      cases loadLine s line with
      | none => rfl
      | some s1 => exact ih s1
    · have hl := loadLine_few_bars s line (by omega)
      simp only [List.filter, h, decide_False, loadLines, hl]
      exact ih s

/-- C11: a line with fewer than two `|` leaves the store as it is, and when the lines of
`text2` are the lines of `text` without those that have fewer than two `|`, loading
`text2` gives the same result as loading `text`: the same tasks and the same `nextId`
(and an aborted load when the other aborts). -/
theorem malformed_lines_skipped (s : Store) (text text2 : List Char)
    (h : getLines text2 = (getLines text).filter (fun l => decide (2 ≤ barCount l))) :
    loadTasks s (some text2) = loadTasks s (some text) ∧
    ∀ line : List Char, barCount line < 2 → loadLine s line = some s := by
  refine ⟨?_, fun line hl => loadLine_few_bars s line hl⟩
  simp only [loadTasks, h]
  exact loadLines_filter (getLines text) s

/-- Witness of C11: a file with the line `3|oops`, an empty line and a line without any
delimiter between two well-formed lines. -/
theorem malformed_lines_skipped_witness :
    getLines "1|0|a\n2|1|b".toList =
      (getLines "1|0|a\n3|oops\n\nplain\n2|1|b".toList).filter
        (fun l => decide (2 ≤ barCount l)) ∧
    (loadTasks emptyStore (some "1|0|a\n2|1|b".toList) =
        loadTasks emptyStore (some "1|0|a\n3|oops\n\nplain\n2|1|b".toList) ∧
      ∀ line : List Char, barCount line < 2 → loadLine emptyStore line = some emptyStore) :=
  ⟨by decide, malformed_lines_skipped emptyStore _ _ (by decide)⟩

/-! ## The fields of a well-formed line -/

theorem getLines_single (l : List Char) (hne : l ≠ []) (hl : '\n' ∉ l) : getLines l = [l] := by
  induction l with
  | nil => exact absurd rfl hne
  | cons c cs ih =>
    have hc : c ≠ '\n' := fun e => hl (e ▸ List.mem_cons_self c cs)
    have hcs : '\n' ∉ cs := fun m => hl (List.mem_cons_of_mem c m)
    cases cs with
    | nil => simp [getLines, hc]
    | cons c2 cs2 =>
      have h2 := ih (by simp) hcs
      rw [getLines, if_neg hc, h2]

/-- C12: in a line `a|b|d` where `a` and `b` hold no `|` and `stoi` reads the id from `a`,
the decoded task has that id and the description `d`, whatever further `|` the text `d`
holds; when the line holds no newline, loading it as a file pushes exactly that task.
The file `7|0|Pay|bills` decodes to the id 7 with the description `Pay|bills`. -/
theorem description_is_rest (s : Store) (a b d : List Char) (id : Int)
    (ha : '|' ∉ a) (hb : '|' ∉ b) (hid : stoi a = some id)
    (hnl : '\n' ∉ a ++ '|' :: (b ++ '|' :: d)) :
    loadLine s (a ++ '|' :: (b ++ '|' :: d)) =
      some (pushTask s { id := id, description := d, completed := decide (b = ['1']) }) ∧
    loadTasks s (some (a ++ '|' :: (b ++ '|' :: d))) =
      some (pushTask s { id := id, description := d, completed := decide (b = ['1']) }) ∧
    loadTasks emptyStore (some "7|0|Pay|bills".toList) =
      some ⟨[⟨7, "Pay|bills".toList, false⟩], 8⟩ := by
  have h1 : loadLine s (a ++ '|' :: (b ++ '|' :: d)) =
      some (pushTask s { id := id, description := d, completed := decide (b = ['1']) }) := by
    rw [loadLine_pushTask s a b d ha hb, hid]
    rfl
  refine ⟨h1, ?_, by decide⟩
  simp only [loadTasks, getLines_single _ (by simp) hnl, loadLines, h1]

/-- Witness of C12: the line `12|1|x|y|` loaded into a store with counter 4. -/
theorem description_is_rest_witness :
    '|' ∉ "12".toList ∧ '|' ∉ "1".toList ∧ stoi "12".toList = some 12 ∧
    '\n' ∉ "12".toList ++ '|' :: ("1".toList ++ '|' :: "x|y|".toList) ∧
    (loadLine ⟨[], 4⟩ ("12".toList ++ '|' :: ("1".toList ++ '|' :: "x|y|".toList)) =
        some (pushTask ⟨[], 4⟩
          { id := 12, description := "x|y|".toList, completed := decide ("1".toList = ['1']) }) ∧
      loadTasks ⟨[], 4⟩ (some ("12".toList ++ '|' :: ("1".toList ++ '|' :: "x|y|".toList))) =
        some (pushTask ⟨[], 4⟩
          { id := 12, description := "x|y|".toList, completed := decide ("1".toList = ['1']) }) ∧
      loadTasks emptyStore (some "7|0|Pay|bills".toList) =
        some ⟨[⟨7, "Pay|bills".toList, false⟩], 8⟩) :=
  ⟨by decide, by decide, by decide, by decide,
    description_is_rest ⟨[], 4⟩ "12".toList "1".toList "x|y|".toList 12
      (by decide) (by decide) (by decide) (by decide)⟩

/-- C15: in a line `a|b|d` where `a` and `b` hold no `|` and `stoi` reads the id from `a`,
the decoded task is completed exactly when the segment `b` is the one-character text `1`.
The segments `0`, empty, ` 1`, `true` and `11` decode to false. -/
theorem completed_iff_one (s : Store) (a b d : List Char) (id : Int)
    (ha : '|' ∉ a) (hb : '|' ∉ b) (hid : stoi a = some id) :
    (∃ t : Task, loadLine s (a ++ '|' :: (b ++ '|' :: d)) = some (pushTask s t) ∧
      t.id = id ∧ (t.completed = true ↔ b = ['1'])) ∧
    loadTasks emptyStore
        (some "1|0|a\n2||b\n3| 1|c\n4|true|d\n5|11|e\n6|1|f\n".toList) =
      some ⟨[⟨1, ['a'], false⟩, ⟨2, ['b'], false⟩, ⟨3, ['c'], false⟩, ⟨4, ['d'], false⟩,
        ⟨5, ['e'], false⟩, ⟨6, ['f'], true⟩], 7⟩ := by
  refine ⟨⟨{ id := id, description := d, completed := decide (b = ['1']) }, ?_, rfl, ?_⟩,
    by decide⟩
  · rw [loadLine_pushTask s a b d ha hb, hid]
    rfl
  · simp

/-- Witness of C15: the flag segment `1 ` (with a space after the digit) decodes to false. -/
theorem completed_iff_one_witness :
    '|' ∉ "3".toList ∧ '|' ∉ "1 ".toList ∧ stoi "3".toList = some 3 ∧
    ((∃ t : Task, loadLine emptyStore ("3".toList ++ '|' :: ("1 ".toList ++ '|' :: "x".toList)) =
          some (pushTask emptyStore t) ∧
        t.id = 3 ∧ (t.completed = true ↔ "1 ".toList = ['1'])) ∧
      loadTasks emptyStore
          (some "1|0|a\n2||b\n3| 1|c\n4|true|d\n5|11|e\n6|1|f\n".toList) =
        some ⟨[⟨1, ['a'], false⟩, ⟨2, ['b'], false⟩, ⟨3, ['c'], false⟩, ⟨4, ['d'], false⟩,
          ⟨5, ['e'], false⟩, ⟨6, ['f'], true⟩], 7⟩) :=
  ⟨by decide, by decide, by decide,
    completed_iff_one emptyStore "3".toList "1 ".toList "x".toList 3
      (by decide) (by decide) (by decide)⟩

/-! ## When a load aborts -/

theorem loadLine_none_iff (s : Store) (line : List Char) :
    loadLine s line = none ↔ 2 ≤ barCount line ∧ stoi (idSegment line) = none := by
  rcases line_shape line with ⟨h1, h2⟩ | ⟨a, b, d, e, ha, hb⟩
  · rw [h2 s]
    constructor
    · intro h; exact absurd h (by simp)
    · intro h; omega
  · rw [e, loadLine_pushTask s a b d ha hb, idSegment_fields a _ ha, barCount_fields a b d ha hb]
    constructor
    · intro h
      refine ⟨by omega, ?_⟩
      cases hst : stoi a with
      | none => rfl
      | some v => rw [hst] at h; exact absurd h (by simp)
    · intro h
      rw [h.2]
      rfl

theorem loadLines_none_iff (lines : List (List Char)) : ∀ s : Store,
    loadLines s lines = none ↔
      ∃ line ∈ lines, 2 ≤ barCount line ∧ stoi (idSegment line) = none := by
  induction lines with
  | nil => intro s; simp [loadLines]
  | cons line rest ih =>
    intro s
    cases hl : loadLine s line with
    | none =>
      simp only [loadLines, hl, true_iff]
      exact ⟨line, List.mem_cons_self line rest, (loadLine_none_iff s line).1 hl⟩
    | some s1 =>
      have hn : ¬ (2 ≤ barCount line ∧ stoi (idSegment line) = none) := by
        intro h
        have := (loadLine_none_iff s line).2 h
        rw [hl] at this
        exact absurd this (by simp)
      simp only [loadLines, hl]
      rw [ih s1]
      constructor
      · rintro ⟨l, hm, h⟩
        exact ⟨l, List.mem_cons_of_mem line hm, h⟩
      · rintro ⟨l, hm, h⟩
        rcases List.mem_cons.1 hm with e | hm2
        · subst e; exact absurd h hn
        · exact ⟨l, hm2, h⟩

/-- C13: loading a text aborts exactly when one of its lines has at least two `|` and an
id segment, the text before its first `|`, on which `stoi` throws; and a line with
fewer than two `|` never aborts the load, it leaves the store as it is. -/
theorem load_aborts_iff (s : Store) (text : List Char) :
    (loadTasks s (some text) = none ↔
      ∃ line ∈ getLines text, 2 ≤ barCount line ∧ stoi (idSegment line) = none) ∧
    (∀ line : List Char, barCount line < 2 → loadLine s line = some s) :=
  ⟨loadLines_none_iff (getLines text) s, fun line h => loadLine_few_bars s line h⟩

/-- Witness of C13: the second line of the file has two `|` and the id segment `x`. -/
theorem load_aborts_iff_witness :
    (loadTasks emptyStore (some "1|0|a\nx|1|b\n3|oops\n".toList) = none ↔
      ∃ line ∈ getLines "1|0|a\nx|1|b\n3|oops\n".toList,
        2 ≤ barCount line ∧ stoi (idSegment line) = none) ∧
    (∀ line : List Char, barCount line < 2 → loadLine emptyStore line = some emptyStore) :=
  load_aborts_iff emptyStore "1|0|a\nx|1|b\n3|oops\n".toList

/-! ## What a load pushes -/

theorem getLines_no_newline (text : List Char) : ∀ l ∈ getLines text, '\n' ∉ l := by
  induction text with
  | nil => intro l hl; simp [getLines] at hl
  | cons c cs ih =>
    intro l hl
    by_cases hc : c = '\n'
    · rw [getLines, if_pos hc] at hl
      rcases List.mem_cons.1 hl with e | hm
      · rw [e]; simp
      · exact ih l hm
    · rw [getLines, if_neg hc] at hl
      cases hg : getLines cs with
      | nil =>
        rw [hg] at hl
        simp only [List.mem_singleton] at hl
        rw [hl]
        simp only [List.mem_singleton]
        exact fun e => hc e.symm
      | cons l2 ls =>
        rw [hg] at hl ih
        rcases List.mem_cons.1 hl with e | hm
        · rw [e]
          intro hmem
          rcases List.mem_cons.1 hmem with e2 | hm2
          · exact hc e2.symm
          · exact ih l2 (List.mem_cons_self l2 ls) hm2
        · exact ih l (List.mem_cons_of_mem l2 hm)

theorem loadLine_pushed (s s1 : Store) (line : List Char) (h : loadLine s line = some s1) :
    s1 = s ∨ ∃ t : Task, (INT_MIN ≤ t.id ∧ t.id ≤ INT_MAX) ∧
      (∀ c ∈ t.description, c ∈ line) ∧ s1 = pushTask s t := by
  rcases line_shape line with ⟨_, h2⟩ | ⟨a, b, d, e, ha, hb⟩
  · left
    rw [h2 s] at h
    exact (Option.some.inj h).symm
  · right
    rw [e, loadLine_pushTask s a b d ha hb] at h
    cases hst : stoi a with
    | none => rw [hst] at h; exact absurd h (by simp)
    | some v =>
      rw [hst] at h
      refine ⟨_, stoi_range a v hst, ?_, (Option.some.inj h).symm⟩
      intro c hc
      rw [e]
      simp only [List.mem_append, List.mem_cons]
      exact Or.inr (Or.inr (Or.inr (Or.inr hc)))

theorem foldl_pushTask_tasks (new : List Task) : ∀ s : Store,
    (new.foldl pushTask s).tasks = s.tasks ++ new := by
  induction new with
  | nil => intro s; simp
  | cons t new ih =>
    intro s
    simp only [List.foldl_cons, ih]
    simp [pushTask]

theorem loadLines_fold (lines : List (List Char)) : ∀ s s1 : Store,
    loadLines s lines = some s1 → (∀ l ∈ lines, '\n' ∉ l) →
    ∃ new : List Task, InRange new ∧ (∀ t ∈ new, '\n' ∉ t.description) ∧
      s1 = new.foldl pushTask s := by
  induction lines with
  | nil =>
    intro s s1 h _
    simp only [loadLines, Option.some.injEq] at h
    exact ⟨[], by simp [InRange], by simp, h.symm⟩
  | cons line rest ih =>
    intro s s1 h hnl
    simp only [loadLines] at h
    cases hl : loadLine s line with
    | none => rw [hl] at h; exact absurd h (by simp)
    | some s2 =>
      rw [hl] at h
      obtain ⟨new, k1, k2, k3⟩ := ih s2 s1 h (fun l hm => hnl l (List.mem_cons_of_mem line hm))
      rcases loadLine_pushed s s2 line hl with e | ⟨t, htr, htd, e⟩
      · subst e
        exact ⟨new, k1, k2, k3⟩
      · subst e
        refine ⟨t :: new, ?_, ?_, k3⟩
        · intro x hx
          rcases List.mem_cons.1 hx with e | hm
          · subst e; exact htr
          · exact k1 x hm
        · intro x hx
          rcases List.mem_cons.1 hx with e | hm
          · subst e
            exact fun hc => hnl line (List.mem_cons_self line rest) (htd _ hc)
          · exact k2 x hm

theorem loadLines_taskLines_fold (ts : List Task) : ∀ s : Store, InRange ts →
    loadLines s (ts.map taskLine) = some (ts.foldl pushTask s) := by
  induction ts with
  | nil => intro s _; rfl
  | cons t ts ih =>
    intro s hr
    have ht := hr t (List.mem_cons_self t ts)
    have h2 := ih (pushTask s t) (fun x hx => hr x (List.mem_cons_of_mem t hx))
    simp only [List.map_cons, loadLines, loadLine_taskLine s t ht.1 ht.2, List.foldl_cons]
    exact h2

theorem loadTasks_fold (text : List Char) (s s1 : Store)
    (h : loadTasks s (some text) = some s1) :
    ∃ new : List Task, InRange new ∧ (∀ t ∈ new, '\n' ∉ t.description) ∧
      s1 = new.foldl pushTask s :=
  loadLines_fold (getLines text) s s1 h (getLines_no_newline text)

/-- C20: when loading a text into the fresh store succeeds, saving the loaded tasks and
loading the saved text into the fresh store succeeds too and gives the same store: the
same tasks and the same `nextId`. -/
theorem load_save_load (text : List Char) (s1 : Store)
    (h : loadTasks emptyStore (some text) = some s1) :
    loadTasks emptyStore (some (saveTasks s1.tasks)) = some s1 := by
  obtain ⟨new, k1, k2, k3⟩ := loadTasks_fold text emptyStore s1 h
  have e : s1.tasks = new := by
    rw [k3, foldl_pushTask_tasks]
    simp [emptyStore]
  rw [e]
  simp only [loadTasks, getLines_saveTasks new k2]
  rw [loadLines_taskLines_fold new emptyStore k1, k3]

/-- Witness of C20: a file with a description holding `|`, a malformed line, an id with
white space and a sign, and a flag that is not `1`. -/
theorem load_save_load_witness :
    loadTasks emptyStore (some "7|0|Pay|bills\n3|oops\n +4x|yes|b\n-2|1|".toList) =
      some ⟨[⟨7, "Pay|bills".toList, false⟩, ⟨4, ['b'], false⟩, ⟨-2, [], true⟩], 8⟩ ∧
    loadTasks emptyStore (some (saveTasks
        (⟨[⟨7, "Pay|bills".toList, false⟩, ⟨4, ['b'], false⟩, ⟨-2, [], true⟩], 8⟩ : Store).tasks)) =
      some ⟨[⟨7, "Pay|bills".toList, false⟩, ⟨4, ['b'], false⟩, ⟨-2, [], true⟩], 8⟩ :=
  ⟨by decide,
    load_save_load "7|0|Pay|bills\n3|oops\n +4x|yes|b\n-2|1|".toList _ (by decide)⟩

/-! ## Descriptions that the format cannot hold -/

/-- C14, as amended: when some description of the list holds a newline, loading the text
that `saveTasks` writes does not give the list back: the load aborts or returns other
tasks. -/
theorem newline_breaks_roundtrip (ts : List Task) (h : ∃ t ∈ ts, '\n' ∈ t.description) :
    (loadTasks emptyStore (some (saveTasks ts))).map Store.tasks ≠ some ts := by
  intro hmap
  cases hl : loadTasks emptyStore (some (saveTasks ts)) with
  | none => rw [hl] at hmap; exact absurd hmap (by simp)
  | some s1 =>
    rw [hl] at hmap
    have e1 : s1.tasks = ts := Option.some.inj hmap
    obtain ⟨new, _, k2, k3⟩ := loadTasks_fold _ emptyStore s1 hl
    have e2 : s1.tasks = new := by
      rw [k3, foldl_pushTask_tasks]
      simp [emptyStore]
    obtain ⟨t, ht, hn⟩ := h
    rw [← e1, e2] at ht
    exact k2 t ht hn

/-- Witness of C14 as amended: the description `a`, newline, `b` comes back as `a`. -/
theorem newline_breaks_roundtrip_witness :
    (∃ t ∈ ([⟨1, "a\nb".toList, false⟩] : List Task), '\n' ∈ t.description) ∧
    (loadTasks emptyStore (some (saveTasks [⟨1, "a\nb".toList, false⟩]))).map Store.tasks ≠
      some [⟨1, "a\nb".toList, false⟩] :=
  ⟨⟨⟨1, "a\nb".toList, false⟩, by decide, by decide⟩,
    newline_breaks_roundtrip _ ⟨⟨1, "a\nb".toList, false⟩, by decide, by decide⟩⟩

/-- C14 fails as stated: the description `Pay|bills` holds the delimiter, and loading the
text that `saveTasks` writes for the list gives the list back. -/
theorem delimiter_roundtrip_counterexample :
    (∃ t ∈ ([⟨7, "Pay|bills".toList, false⟩] : List Task), '|' ∈ t.description) ∧
    saveTasks [⟨7, "Pay|bills".toList, false⟩] = "7|0|Pay|bills\n".toList ∧
    (loadTasks emptyStore (some (saveTasks [⟨7, "Pay|bills".toList, false⟩]))).map Store.tasks =
      some [⟨7, "Pay|bills".toList, false⟩] := by
  refine ⟨⟨⟨7, "Pay|bills".toList, false⟩, by decide, by decide⟩, by decide, by decide⟩

/-! ## Positive ids -/

theorem applyOp_lower (s : Store) (op : Op)
    (hpos : ∀ t ∈ s.tasks, 1 ≤ t.id) (hlo : 1 ≤ s.nextId)
    (hadd : s.nextId + (numAdds [op] : Int) ≤ INT_MAX) :
    (∀ t ∈ (applyOp s op).tasks, 1 ≤ t.id) ∧
    (applyOp s op).nextId = s.nextId + (numAdds [op] : Int) := by
  cases op with
  | add d =>
    have hmax : s.nextId < INT_MAX := by
      simp only [numAdds] at hadd
      omega
    have hw := wrapInt_succ s.nextId (by simp only [INT_MIN]; omega) hmax
    simp only [applyOp, addTask, hw, numAdds]
    refine ⟨?_, by simp⟩
    intro t ht
    rcases List.mem_append.1 ht with hm | hm
    · exact hpos t hm
    · simp only [List.mem_singleton] at hm
      subst hm
      exact hlo
  | complete id =>
    simp only [applyOp, numAdds]
    refine ⟨?_, by simp⟩
    intro u hu
    obtain ⟨t, ht, e, _⟩ := markTaskCompleted_mem s.tasks id u hu
    rw [e]
    exact hpos t ht
  | delete id =>
    simp only [applyOp, numAdds]
    refine ⟨?_, by simp⟩
    intro u hu
    exact hpos u ((deleteTask_sublist s.tasks id).subset hu)

theorem runOps_lower (ops : List Op) : ∀ s : Store,
    (∀ t ∈ s.tasks, 1 ≤ t.id) → 1 ≤ s.nextId →
    s.nextId + (numAdds ops : Int) ≤ INT_MAX →
    ∀ t ∈ (runOps s ops).tasks, 1 ≤ t.id := by
  induction ops with
  | nil => intro s hpos _ _; exact hpos
  | cons op ops ih =>
    intro s hpos hlo hadd
    rw [numAdds_cons] at hadd
    push_cast at hadd
    have hn0 : (0 : Int) ≤ (numAdds ops : Int) := Int.natCast_nonneg _
    have hn1 : (0 : Int) ≤ (numAdds [op] : Int) := Int.natCast_nonneg _
    obtain ⟨h1, h2⟩ := applyOp_lower s op hpos hlo (by omega)
    have e : runOps s (op :: ops) = runOps (applyOp s op) ops := rfl
    rw [e]
    exact ih (applyOp s op) h1 (by omega) (by omega)

/-- C16, as amended: when the text loaded into the empty store decodes only to ids from 1
to `INT_MAX - 1`, and the Add choices that follow do not take the counter past `INT_MAX`,
every task of the store has an id of at least 1 after any sequence of Add, Complete and
Delete. -/
theorem ids_positive_after_load (text : List Char) (s0 : Store) (ops : List Op)
    (hload : loadTasks emptyStore (some text) = some s0)
    (hpos : ∀ t ∈ s0.tasks, 1 ≤ t.id ∧ t.id < INT_MAX)
    (hadd : s0.nextId + (numAdds ops : Int) ≤ INT_MAX) :
    ∀ t ∈ (runOps s0 ops).tasks, 1 ≤ t.id := by
  obtain ⟨_, h2⟩ := loadTasks_fresh text s0 hload (fun t ht => (hpos t ht).2)
  exact runOps_lower ops s0 (fun t ht => (hpos t ht).1) h2 hadd

/-- Witness of C16 as amended: a file of two tasks, then Add, Delete, Complete, Add. -/
theorem ids_positive_after_load_witness :
    loadTasks emptyStore (some "4|1|a\n2|0|b\n".toList) =
      some ⟨[⟨4, ['a'], true⟩, ⟨2, ['b'], false⟩], 5⟩ ∧
    (∀ t ∈ (⟨[⟨4, ['a'], true⟩, ⟨2, ['b'], false⟩], 5⟩ : Store).tasks,
      1 ≤ t.id ∧ t.id < INT_MAX) ∧
    (⟨[⟨4, ['a'], true⟩, ⟨2, ['b'], false⟩], 5⟩ : Store).nextId +
      (numAdds [Op.add ['c'], Op.delete 4, Op.complete 2, Op.add []] : Int) ≤ INT_MAX ∧
    (∀ t ∈ (runOps ⟨[⟨4, ['a'], true⟩, ⟨2, ['b'], false⟩], 5⟩
      [Op.add ['c'], Op.delete 4, Op.complete 2, Op.add []]).tasks, 1 ≤ t.id) :=
  ⟨by decide, by decide, by decide,
    ids_positive_after_load "4|1|a\n2|0|b\n".toList _ _ (by decide) (by decide) (by decide)⟩

/-- C16 fails as stated: `stoi` reads a sign and a zero, so the file below loads into a
store with the ids -5 and 0; and a file holding the id `INT_MAX` wraps the counter, after
which an Add hands out `INT_MIN`. -/
theorem ids_positive_counterexample :
    (loadTasks emptyStore (some "-5|0|x\n0|1|y\n".toList) =
        some ⟨[⟨-5, ['x'], false⟩, ⟨0, ['y'], true⟩], 1⟩ ∧
      ¬ (∀ t ∈ (runOps ⟨[⟨-5, ['x'], false⟩, ⟨0, ['y'], true⟩], 1⟩ []).tasks, 1 ≤ t.id)) ∧
    (loadTasks emptyStore (some "2147483647|0|x".toList) =
        some ⟨[⟨2147483647, ['x'], false⟩], -2147483648⟩ ∧
      (runOps ⟨[⟨2147483647, ['x'], false⟩], -2147483648⟩ [Op.add ['y']]).tasks =
        [⟨2147483647, ['x'], false⟩, ⟨-2147483648, ['y'], false⟩]) := by
  refine ⟨⟨by decide, by decide⟩, ⟨by decide, by decide⟩⟩

/-! ## Add -/

/-- C17, as amended: `addTask` always returns; the list it leaves is the old list followed
by the one task with the old `nextId`, the given description and `completed = false`; and
when the old `nextId` is a 32-bit `int` below `INT_MAX`, the counter goes up by exactly
one. -/
theorem addTask_post (s : Store) (d : List Char)
    (hlo : INT_MIN ≤ s.nextId) (hhi : s.nextId < INT_MAX) :
    (∀ (s2 : Store) (d2 : List Char),
      (addTask s2 d2).tasks = s2.tasks ++ [⟨s2.nextId, d2, false⟩]) ∧
    addTask s d = ⟨s.tasks ++ [⟨s.nextId, d, false⟩], s.nextId + 1⟩ ∧
    (addTask s d).tasks.take s.tasks.length = s.tasks := by
  refine ⟨fun _ _ => rfl, ?_, ?_⟩
  · simp only [addTask, wrapInt_succ s.nextId hlo hhi]
  · simp [addTask]

/-- Witness of C17 as amended: Add with the empty description on a store of one task. -/
theorem addTask_post_witness :
    INT_MIN ≤ (⟨[⟨4, ['a'], true⟩], 7⟩ : Store).nextId ∧
    (⟨[⟨4, ['a'], true⟩], 7⟩ : Store).nextId < INT_MAX ∧
    ((∀ (s2 : Store) (d2 : List Char),
        (addTask s2 d2).tasks = s2.tasks ++ [⟨s2.nextId, d2, false⟩]) ∧
      addTask ⟨[⟨4, ['a'], true⟩], 7⟩ [] = ⟨[⟨4, ['a'], true⟩] ++ [⟨7, [], false⟩], 7 + 1⟩ ∧
      (addTask ⟨[⟨4, ['a'], true⟩], 7⟩ []).tasks.take
        (⟨[⟨4, ['a'], true⟩], 7⟩ : Store).tasks.length = [⟨4, ['a'], true⟩]) :=
  ⟨by decide, by decide, addTask_post ⟨[⟨4, ['a'], true⟩], 7⟩ [] (by decide) (by decide)⟩

/-- C17 fails as stated: the file `2147483646|0|x` leaves the counter at `INT_MAX`; the
Add that follows leaves it at `INT_MIN`, which is not one more. -/
theorem addTask_counterexample :
    loadTasks emptyStore (some "2147483646|0|x".toList) =
      some ⟨[⟨2147483646, ['x'], false⟩], 2147483647⟩ ∧
    addTask ⟨[⟨2147483646, ['x'], false⟩], 2147483647⟩ ['y'] =
      ⟨[⟨2147483646, ['x'], false⟩, ⟨2147483647, ['y'], false⟩], -2147483648⟩ ∧
    (addTask ⟨[⟨2147483646, ['x'], false⟩], 2147483647⟩ ['y']).nextId ≠ 2147483647 + 1 := by
  refine ⟨by decide, by decide, by decide⟩

/-! ## Empty store, empty file -/

/-- C18: `saveTasks` writes the empty text for the empty list; loading the empty text, or
a file that cannot be opened, into the fresh store leaves no task and `nextId = 1`. -/
theorem empty_store_empty_file :
    saveTasks [] = [] ∧
    loadTasks emptyStore (some []) = some ⟨[], 1⟩ ∧
    loadTasks emptyStore none = some ⟨[], 1⟩ ∧
    loadTasks emptyStore (some (saveTasks [])) = some emptyStore := by
  refine ⟨rfl, rfl, rfl, rfl⟩

/-! ## Completing twice -/

theorem markTaskCompleted_twice (ts : List Task) (id : Int) :
    markTaskCompleted (markTaskCompleted ts id).1 id = markTaskCompleted ts id := by
  by_cases hex : ∃ t ∈ ts, t.id = id
  · obtain ⟨pre, t, post, e, hid, hpre⟩ := first_match ts id hex
    rw [e, markTaskCompleted_split pre t post id hid hpre]
    exact markTaskCompleted_split pre ⟨t.id, t.description, true⟩ post id hid hpre
  · have hab : ∀ t ∈ ts, t.id ≠ id := fun t ht e => hex ⟨t, ht, e⟩
    rw [markTaskCompleted_absent ts id hab]
    exact markTaskCompleted_absent ts id hab

/-- C19: applying `markTaskCompleted` with the same id a second time returns the same
list and the same found / not-found result as the first time, so the store after two
Complete choices is the store after one; and when the first task of that id is already
completed, `markTaskCompleted` reports success and returns the list as it was. -/
theorem markTaskCompleted_idempotent (ts : List Task) (id : Int) :
    markTaskCompleted (markTaskCompleted ts id).1 id = markTaskCompleted ts id ∧
    (∀ s : Store, applyOp (applyOp s (Op.complete id)) (Op.complete id) =
      applyOp s (Op.complete id)) ∧
    (∀ (pre : List Task) (t : Task) (post : List Task), ts = pre ++ t :: post → t.id = id →
      (∀ u ∈ pre, u.id ≠ id) → t.completed = true → markTaskCompleted ts id = (ts, true)) := by
  refine ⟨markTaskCompleted_twice ts id, ?_, ?_⟩
  · intro s
    simp only [applyOp, markTaskCompleted_twice]
  · intro pre t post e hid hpre hc
    rw [e, markTaskCompleted_split pre t post id hid hpre]
    have ht : (⟨t.id, t.description, true⟩ : Task) = t := by
      cases t
      simp only at hc
      simp [hc]
    rw [ht]

/-- Witness of C19: completing the id 2, already completed, in a list of three tasks. -/
theorem markTaskCompleted_idempotent_witness :
    markTaskCompleted
        (markTaskCompleted [⟨1, ['a'], false⟩, ⟨2, ['b'], true⟩, ⟨3, ['c'], false⟩] 2).1 2 =
      markTaskCompleted [⟨1, ['a'], false⟩, ⟨2, ['b'], true⟩, ⟨3, ['c'], false⟩] 2 ∧
    (∀ s : Store, applyOp (applyOp s (Op.complete 2)) (Op.complete 2) =
      applyOp s (Op.complete 2)) ∧
    (∀ (pre : List Task) (t : Task) (post : List Task),
      [⟨1, ['a'], false⟩, ⟨2, ['b'], true⟩, ⟨3, ['c'], false⟩] = pre ++ t :: post → t.id = 2 →
      (∀ u ∈ pre, u.id ≠ 2) → t.completed = true →
      markTaskCompleted [⟨1, ['a'], false⟩, ⟨2, ['b'], true⟩, ⟨3, ['c'], false⟩] 2 =
        ([⟨1, ['a'], false⟩, ⟨2, ['b'], true⟩, ⟨3, ['c'], false⟩], true)) :=
  markTaskCompleted_idempotent [⟨1, ['a'], false⟩, ⟨2, ['b'], true⟩, ⟨3, ['c'], false⟩] 2

end ToDoList
